import Mathlib

/-!
Verification development for the FareHunter alternate-drop-off discovery
engine.  The TypeScript source is shallowly embedded here over `ℚ`:

* JavaScript numbers are modelled as rationals; `Math.round` becomes
  `jsRound` (round half up, `⌊x + 1/2⌋`), which agrees with `Math.round`
  on every input.
* `Number.prototype.toFixed(k)` string keys used for deduplication are
  modelled as the integer `jsRound (x * 10^k)`.
* `haversineMeters` applies transcendental functions (`sin`, `cos`,
  `asin`) that have no exact rational value, so the radial-distance
  function is carried as an explicit parameter of the pipeline input
  (`PipeInput.hav`); every property proved below holds for an arbitrary
  such function, and concrete instances pick concrete functions.
* Asynchronous provider calls (`mapboxWalk`, `mapboxDrive`) are modelled
  as oracle functions returning `Option` results; `none` models a failed
  provider call.
* A JavaScript exception (e.g. destructuring `undefined`) is modelled by
  an `Option`-valued function returning `none`.
* `Array.prototype.sort` (required by ECMAScript to be a stable sort) is
  modelled by a stable insertion sort `jsSort`.
-/

set_option maxRecDepth 10000

/-- WGS-84 coordinate pair, `{lat, lng}` in the source. -/
structure LatLng where
  lat : ℚ
  lng : ℚ
deriving DecidableEq

/-- Result of a driving-directions query: `{distance, duration}`. -/
structure DriveStats where
  distance : ℚ
  duration : ℚ
deriving DecidableEq

/-- A fare quote `{low, high, center}` as returned by `modeledPriceUSD`. -/
structure FareQuote where
  low : ℚ
  high : ℚ
  center : ℚ
deriving DecidableEq

/-- `Math.round`: round half toward positive infinity, as an integer. -/
def jsRound (q : ℚ) : ℤ := ⌊q + 1 / 2⌋

/-- `(m / speedMps / 60)` rounded: `metersToMinWalk` with the default
walking speed `1.33 m/s`. -/
def metersToMinWalk (m : ℚ) : ℤ := jsRound (m / (1.33 : ℚ) / 60)

/-- Bounding box of a surcharge zone. -/
structure Box where
  minLat : ℚ
  maxLat : ℚ
  minLng : ℚ
  maxLng : ℚ
deriving DecidableEq

/-- The `ZONES` table: Downtown ($0.75) and Airport ($1.25) boxes. -/
def ZONES : List (Box × ℚ) :=
  [(⟨30.260, 30.275, -97.753, -97.734⟩, 0.75),
   (⟨30.187, 30.217, -97.706, -97.648⟩, 1.25)]

/-- `inBox(p, b)`: closed bounding-box membership test. -/
def inBox (p : LatLng) (b : Box) : Bool :=
  decide (b.minLat ≤ p.lat) && decide (p.lat ≤ b.maxLat) &&
  decide (b.minLng ≤ p.lng) && decide (p.lng ≤ b.maxLng)

/-- `zonePenaltyUSD(p)`: sum of the penalties of every zone containing `p`. -/
def zonePenaltyUSD (p : LatLng) : ℚ :=
  ZONES.foldl (fun sum z => if inBox p z.1 then sum + z.2 else sum) 0

/-- `modeledPriceUSD(distance_m, duration_s, surge, penaltyUSD)` from the
multi-tier PageClient variant: the surge multiplier and zone penalty are
explicit arguments, the ratecard is `base 2.25, perMile 1.50, perMin 0.33,
service 1.2`, the center is floored at 5 and `low` at 4.5. -/
def modeledPriceUSD (distance_m duration_s surge penaltyUSD : ℚ) : FareQuote :=
  let miles := distance_m / (1609.34 : ℚ)
  let mins := duration_s / 60
  let est := ((2.25 : ℚ) + (1.50 : ℚ) * miles + (0.33 : ℚ) * mins + (1.2 : ℚ)) * surge + penaltyUSD
  let center := max 5 est
  { low := max (4.5 : ℚ) (center * (0.9 : ℚ)), high := center * (1.12 : ℚ), center := center }

/-- `modeledPriceUSD(distance_m, duration_s)` from the two-pass page.tsx
variant.  That function reads the wall clock (`new Date().getHours()`,
`Date.now()`) and a sine-based pseudo-random draw inside the estimator;
those ambient readings are modelled as the explicit extra inputs
`hourOfDay`, `rndRush` and `rndCalm` (the two `seededRand` draws). -/
def modeledPriceUSDv1 (hourOfDay : ℤ) (rndRush rndCalm : ℚ) (distance_m duration_s : ℚ) : FareQuote :=
  let miles := distance_m / (1609.34 : ℚ)
  let mins := duration_s / 60
  let rush : Bool := (decide (7 ≤ hourOfDay) && decide (hourOfDay ≤ 9)) ||
    (decide (16 ≤ hourOfDay) && decide (hourOfDay ≤ 19))
  let surge := if rush then (1.18 : ℚ) + rndRush * (0.35 : ℚ) else 1 + rndCalm * (0.18 : ℚ)
  let est := ((2.25 : ℚ) + (1.50 : ℚ) * miles + (0.33 : ℚ) * mins + (1.2 : ℚ)) * surge
  let center := max 5 est
  { low := max (4.5 : ℚ) (center * (0.9 : ℚ)), high := center * (1.12 : ℚ), center := center }

/-- `round2`: `Math.round(n * 100) / 100` from lib/estimator.ts. -/
def round2 (n : ℚ) : ℚ := (jsRound (n * 100) : ℚ) / 100

/-- `timeOfDayFactor(d)` from lib/estimator.ts; the clock is passed in as
an hour-of-day and day-of-week pair. -/
def timeOfDayFactor (hour dow : ℤ) : ℚ :=
  let f : ℚ := 1
  let weekday : Bool := decide (1 ≤ dow) && decide (dow ≤ 5)
  let peak : Bool := (decide (7 ≤ hour) && decide (hour ≤ 9)) ||
    (decide (16 ≤ hour) && decide (hour ≤ 19))
  let f := if weekday && peak then f * (1.25 : ℚ) else f
  let friSat : Bool := decide (dow = 5) || decide (dow = 6)
  let evening : Bool := decide (20 ≤ hour) || decide (hour ≤ 2)
  let f := if friSat && evening then f * (1.35 : ℚ) else f
  f

/-- Price range of `estimatePriceRange` (lib/estimator.ts); the `meta`
display field is omitted. -/
structure PriceRange where
  low : ℚ
  high : ℚ
  center : ℚ
deriving DecidableEq

/-- `estimatePriceRange` from lib/estimator.ts.  The provider-reported
`miles`/`driveMin` and the clock reading are explicit inputs.  Ratecard
`AUSTIN_RATECARD`: base 2.25, perMile 1.55, perMin 0.28, booking 2.00,
minFare 7.00; band 0.28 in peaks (tod > 1.2) else 0.18. -/
def estimatePriceRange (miles driveMin : ℚ) (hour dow : ℤ) : PriceRange :=
  let price0 := (2.25 : ℚ) + (1.55 : ℚ) * miles + (0.28 : ℚ) * driveMin + (2 : ℚ)
  let tod := timeOfDayFactor hour dow
  let price := max (price0 * tod) (7 : ℚ)
  let baseBand : ℚ := if (1.2 : ℚ) < tod then (0.28 : ℚ) else (0.18 : ℚ)
  { low := max (7 : ℚ) (round2 (price * (1 - baseBand))),
    high := round2 (price * (1 + baseBand)),
    center := round2 price }

/-- Dedup key used by `sampleTail`: `toFixed(5)` coordinates. -/
def key5 (p : LatLng) : ℤ × ℤ := (jsRound (p.lat * 100000), jsRound (p.lng * 100000))

/-- Dedup key used by the pipeline merges: `toFixed(6)` coordinates. -/
def key6 (p : LatLng) : ℤ × ℤ := (jsRound (p.lat * 1000000), jsRound (p.lng * 1000000))

/-- The `seen`-set deduplication loop at the end of `sampleTail`. -/
def dedup5 (seen : List (ℤ × ℤ)) : List LatLng → List LatLng
  | [] => []
  | p :: rest =>
    if key5 p ∈ seen then dedup5 seen rest
    else p :: dedup5 (key5 p :: seen) rest

/-- One iteration of the `sampleTail` sampling loop: the index arithmetic
is done over `ℤ` exactly as the JS expression
`Math.min(slice.length - 1, Math.floor(t * (slice.length - 1)))`;
an out-of-range access (`slice[-1]` is `undefined`, whose destructuring
throws) yields `none`. -/
def sampleIdx (sliceLen count i : ℕ) : ℤ :=
  let t : ℚ := (i : ℚ) / ((count : ℚ) + 1)
  min ((sliceLen : ℤ) - 1) ⌊t * ((sliceLen : ℚ) - 1)⌋

/-- Body of one `sampleTail` iteration: index into the slice. -/
def sampleAt (slice : List (ℚ × ℚ)) (count i : ℕ) : Option LatLng :=
  if 0 ≤ sampleIdx slice.length count i then
    match slice[(sampleIdx slice.length count i).toNat]? with
    | some c => some ⟨c.2, c.1⟩
    | none => none
  else none

/-- The `for (let i = 1; i <= count; i++)` collection loop of
`sampleTail`; any failing access aborts (models the thrown TypeError). -/
def sampleLoop (slice : List (ℚ × ℚ)) (count : ℕ) : List ℕ → Option (List LatLng)
  | [] => some []
  | i :: rest =>
    match sampleAt slice count i, sampleLoop slice count rest with
    | some p, some ps => some (p :: ps)
    | _, _ => none

/-- `sampleTail(coords, count, fraction)`: slice the last part of the
geometry (excluding the final point), pick `count` evenly spaced indices,
then deduplicate by `toFixed(5)` keys.  Coordinates are `(lng, lat)`
pairs as in GeoJSON. -/
def sampleTail (coords : List (ℚ × ℚ)) (count : ℕ) (fraction : ℚ) : Option (List LatLng) :=
  if coords.length = 0 then some [] else
  let n := coords.length
  let startIdx : ℤ := max 0 (⌊(n : ℚ) * (1 - fraction)⌋ - 1)
  let slice := (coords.take (n - 1)).drop startIdx.toNat
  (sampleLoop slice count (List.range' 1 count)).map (dedup5 [])

/-- Candidate tag: the strict pass tags `'strict'`, the relaxed and
closest-fallback passes tag `'fallback'`. -/
inductive Reason
  | strict
  | fallback
deriving DecidableEq

/-- A pipeline candidate as produced by the PageClient effect:
`{drop, walkMin, drive, routeIdx, surge, reason}`. -/
structure Cand where
  drop : LatLng
  walkMin : ℤ
  drive : DriveStats
  routeIdx : String
  surge : ℚ
  reason : Reason
deriving DecidableEq

/-- A route with its provider stats and label (`distance`, `duration`,
GeoJSON `coords` as `(lng, lat)` pairs).  The display-only `color` and
`kind` fields are omitted. -/
structure RouteGeo where
  distance : ℚ
  duration : ℚ
  coords : List (ℚ × ℚ)
  label : String
deriving DecidableEq

/-- Everything the candidates effect of the PageClient reads: the request
(pickup, destination, walk radius, visibility toggles, route sets, surge
proxy) together with the ambient functions it calls, namely the radial
distance `hav` (`haversineMeters`, transcendental, hence a parameter) and
the two provider oracles (`mapboxWalk` returning a walking duration in
seconds, `mapboxDrive` returning drive stats). -/
structure PipeInput where
  pickup : LatLng
  dest : LatLng
  radiusM : ℚ
  showRegular : Bool
  showAlternates : Bool
  regularRoutes : List RouteGeo
  altRoutes : List RouteGeo
  surge : ℚ
  hav : LatLng → LatLng → ℚ
  walkO : LatLng → LatLng → Option ℚ
  driveO : LatLng → LatLng → Option DriveStats

/-- The `visible` route list: regulars (if shown) then alternates (if
shown). -/
def visibleOf (inp : PipeInput) : List RouteGeo :=
  (if inp.showRegular then inp.regularRoutes else []) ++
  (if inp.showAlternates then inp.altRoutes else [])

/-- Stable insertion of `a` into `l`: `a` goes after every element `b`
with `le b a`. -/
def sInsert (le : α → α → Bool) (a : α) : List α → List α
  | [] => [a]
  | b :: t => if le b a then b :: sInsert le a t else a :: b :: t

/-- Auxiliary accumulator recursion for `jsSort`. -/
def jsSortAux (le : α → α → Bool) : List α → List α → List α
  | acc, [] => acc
  | acc, x :: t => jsSortAux le (sInsert le x acc) t

/-- Stable sort modelling `Array.prototype.sort` with an ECMAScript
comparator (ES2019 requires sort stability; any stable sort realises the
specified behaviour). -/
def jsSort (le : α → α → Bool) (l : List α) : List α := jsSortAux le [] l

/-- Comparator `(a, b) => a.duration - b.duration` on routes. -/
def durLE (a b : RouteGeo) : Bool := decide (a.duration ≤ b.duration)

/-- `[...regularRoutes].sort((a, b) => a.duration - b.duration)[0]`. -/
def bestRegOf (inp : PipeInput) : Option RouteGeo :=
  (jsSort durLE inp.regularRoutes).head?

/-- `{ lat: coords.at(-1)?.[1] ?? 0, lng: coords.at(-1)?.[0] ?? 0 }`. -/
def lastCoordLatLng (r : RouteGeo) : LatLng :=
  match r.coords.getLast? with
  | some c => ⟨c.2, c.1⟩
  | none => ⟨0, 0⟩

/-- The cheapest-regular reference price `bestPrice` used by the strict
pass. -/
def bestPriceOf (inp : PipeInput) (bestReg : RouteGeo) : ℚ :=
  (modeledPriceUSD bestReg.distance bestReg.duration inp.surge
    (zonePenaltyUSD (lastCoordLatLng bestReg))).center

/-- Modeled center price of a candidate, with its zone penalty. -/
def candPrice (inp : PipeInput) (c : Cand) : ℚ :=
  (modeledPriceUSD c.drive.distance c.drive.duration inp.surge
    (zonePenaltyUSD c.drop)).center

/-- The walking-minutes estimate: provider walking duration when the
walking query succeeds, otherwise the straight-line fallback
`metersToMinWalk(radial)`. -/
def walkMinOf (inp : PipeInput) (p : LatLng) (radial : ℚ) : ℤ :=
  match inp.walkO p inp.dest with
  | some dur => jsRound (dur / 60)
  | none => metersToMinWalk radial

/-- Strict-pass evaluation of one sampled point, with the four strict
factors as parameters (the pipeline instantiates them with the module
constants; keeping them as arguments lets us state the tightening
monotonicity claim).  Mirrors the strict-pass loop body: radial guard,
walk stats, drive stats (required), distance/time factors, then the
absolute and percentage price-improvement gates against `bestPrice`. -/
def strictEvalPtP (inp : PipeInput) (bestPrice df tf pctMin absMin : ℚ)
    (r : RouteGeo) (p : LatLng) : Option Cand :=
  let radial := inp.hav p inp.dest
  if inp.radiusM < radial ∨ radial < 12 then none else
  let walkMin := walkMinOf inp p radial
  match inp.driveO inp.pickup p with
  | none => none
  | some drv =>
    if ¬ (drv.distance ≤ df * r.distance ∧ drv.duration ≤ tf * r.duration) then none
    else
      let cp := (modeledPriceUSD drv.distance drv.duration inp.surge (zonePenaltyUSD p)).center
      let absImprove := bestPrice - cp
      let pctImprove := absImprove / bestPrice
      if absImprove < absMin then none
      else if pctImprove < pctMin then none
      else some ⟨p, walkMin, drv, r.label, inp.surge, .strict⟩

/-- The strict pass with the source constants `DIST_FACTOR = 0.88`,
`TIME_FACTOR = 0.88`, `PCT_IMPROVE = 0.12`, `ABS_IMPROVE_MIN = 1.75`. -/
def strictEvalPt (inp : PipeInput) (bestPrice : ℚ) (r : RouteGeo) (p : LatLng) : Option Cand :=
  strictEvalPtP inp bestPrice (0.88 : ℚ) (0.88 : ℚ) (0.12 : ℚ) (1.75 : ℚ) r p

/-- Relaxed-pass evaluation of one sampled point: radial guard, walk
stats, drive stats, `RELAX_DIST = RELAX_TIME = 0.97` factors, and no
price gate. -/
def relaxedEvalPt (inp : PipeInput) (r : RouteGeo) (p : LatLng) : Option Cand :=
  let radial := inp.hav p inp.dest
  if inp.radiusM < radial ∨ radial < 12 then none else
  let walkMin := walkMinOf inp p radial
  match inp.driveO inp.pickup p with
  | none => none
  | some drv =>
    if ¬ (drv.distance ≤ (0.97 : ℚ) * r.distance ∧ drv.duration ≤ (0.97 : ℚ) * r.duration) then none
    else some ⟨p, walkMin, drv, r.label, inp.surge, .fallback⟩

/-- Closest-fallback evaluation of one sampled point: only the radial
guard and a successful drive query are required. -/
def closestEvalPt (inp : PipeInput) (r : RouteGeo) (p : LatLng) : Option Cand :=
  let radial := inp.hav p inp.dest
  if inp.radiusM < radial ∨ radial < 12 then none else
  let walkMin := walkMinOf inp p radial
  match inp.driveO inp.pickup p with
  | none => none
  | some drv => some ⟨p, walkMin, drv, r.label, inp.surge, .fallback⟩

/-- One tier's collection loop over all visible routes: sample each
route's tail (a sampling failure aborts the whole effect, as the JS
exception would) and keep the accepted points in order. -/
def tierCands (ev : RouteGeo → LatLng → Option Cand) : List RouteGeo → Option (List Cand)
  | [] => some []
  | r :: rest =>
    match sampleTail r.coords 16 (0.22 : ℚ) with
    | none => none
    | some pts =>
      match tierCands ev rest with
      | none => none
      | some ls => some (pts.filterMap (ev r) ++ ls)

/-- `strictAll` of the strict pass. -/
def strictTier (inp : PipeInput) (bestPrice : ℚ) : Option (List Cand) :=
  tierCands (strictEvalPt inp bestPrice) (visibleOf inp)

/-- `relaxedAll` of the relaxed pass. -/
def relaxedTier (inp : PipeInput) : Option (List Cand) :=
  tierCands (relaxedEvalPt inp) (visibleOf inp)

/-- `closestAll` of the closest-fallback pass. -/
def closestTier (inp : PipeInput) : Option (List Cand) :=
  tierCands (closestEvalPt inp) (visibleOf inp)

/-- Strict-pass comparator: descending savings against `bestPrice`, ties
by ascending `1.5 * distance + duration`. -/
def strictLE (inp : PipeInput) (bestPrice : ℚ) (a b : Cand) : Bool :=
  let aSave := bestPrice - candPrice inp a
  let bSave := bestPrice - candPrice inp b
  if aSave = bSave then
    decide (a.drive.distance * (1.5 : ℚ) + a.drive.duration ≤ b.drive.distance * (1.5 : ℚ) + b.drive.duration)
  else decide (bSave < aSave)

/-- Relaxed-pass comparator: ascending modeled center price. -/
def priceLE (inp : PipeInput) (a b : Cand) : Bool :=
  decide (candPrice inp a ≤ candPrice inp b)

/-- Closest-fallback comparator: ascending radial distance, ties by
ascending modeled price. -/
def closeLE (inp : PipeInput) (a b : Cand) : Bool :=
  let ra := inp.hav a.drop inp.dest
  let rb := inp.hav b.drop inp.dest
  if ra = rb then decide (candPrice inp a ≤ candPrice inp b) else decide (ra < rb)

/-- `cnt` bookkeeping for the per-route caps. -/
def bump (lab : String) (cnt : String → ℕ) : String → ℕ :=
  fun s => if s = lab then cnt s + 1 else cnt s

/-- The strict-pass capping loop: at most 2 candidates per route label,
breaking as soon as `MAX_SUGGESTIONS = 4` have been kept (`len` is the
current kept count). -/
def capLoop (cnt : String → ℕ) (len : ℕ) : List Cand → List Cand
  | [] => []
  | c :: rest =>
    let cnt' := bump c.routeIdx cnt
    if cnt' c.routeIdx ≤ 2 then
      c :: (if 4 ≤ len + 1 then [] else capLoop cnt' (len + 1) rest)
    else
      if 4 ≤ len then [] else capLoop cnt' len rest

/-- The `have`-set keys of an accumulated result list. -/
def keysOf (l : List Cand) : List (ℤ × ℤ) := l.map (fun c => key6 c.drop)

/-- The merge/dedup loop shared by the relaxed and closest-fallback
passes: skip candidates whose `toFixed(6)` key was already seen, append
the rest, and stop once `stop` results have accumulated. -/
def mergeLoop (stop : ℕ) (seen : List (ℤ × ℤ)) (results : List Cand) : List Cand → List Cand
  | [] => results
  | c :: rest =>
    let k := key6 c.drop
    if k ∈ seen then mergeLoop stop seen results rest
    else
      if stop ≤ (results ++ [c]).length then results ++ [c]
      else mergeLoop stop (k :: seen) (results ++ [c]) rest

/-- `strictCapped` stage of the pipeline: sort `strictAll` by savings and
apply the per-route/total cap. -/
def stage0 (inp : PipeInput) (bp : ℚ) (strictAll : List Cand) : List Cand :=
  capLoop (fun _ => 0) 0 (jsSort (strictLE inp bp) strictAll)

/-- Relaxed-pass merge: sort `relaxedAll` by price and merge with key
dedup, stopping at `max(MIN_SUGGESTIONS, MAX_SUGGESTIONS)`. -/
def stage1 (inp : PipeInput) (results0 relaxedAll : List Cand) : List Cand :=
  mergeLoop (max 2 4) (keysOf results0) results0 (jsSort (priceLE inp) relaxedAll)

/-- Closest-fallback merge: sort `closestAll` by radial distance and merge
with key dedup, stopping at `MIN_SUGGESTIONS`. -/
def stage2 (inp : PipeInput) (results1 closestAll : List Cand) : List Cand :=
  mergeLoop 2 (keysOf results1) results1 (jsSort (closeLE inp) closestAll)

/-- The whole candidates effect of the multi-tier PageClient: strict pass
(sorted by savings, capped 2-per-route and at 4), then, while fewer than
`MIN_SUGGESTIONS = 2` results, the relaxed pass (sorted by price, merged
with key dedup up to 4) and the closest-fallback pass (sorted by radial
distance, merged with key dedup up to 2), and a final `slice(0, 4)`. -/
def discover (inp : PipeInput) : Option (List Cand) :=
  match bestRegOf inp with
  | none => some []
  | some bestReg =>
    match strictTier inp (bestPriceOf inp bestReg) with
    | none => none
    | some strictAll =>
      let results0 := stage0 inp (bestPriceOf inp bestReg) strictAll
      if results0.length < 2 then
        match relaxedTier inp with
        | none => none
        | some relaxedAll =>
          let results1 := stage1 inp results0 relaxedAll
          if results1.length < 2 then
            match closestTier inp with
            | none => none
            | some closestAll => some ((stage2 inp results1 closestAll).take 4)
          else some (results1.take 4)
      else some (results0.take 4)

/-- A candidate of the two-pass page.tsx variant (its `walk`/`color`
display fields are omitted). -/
structure CandV1 where
  drop : LatLng
  walkMin : ℤ
  drive : DriveStats
  routeIdx : String
deriving DecidableEq

/-- Inputs of the two-pass page.tsx `build` effect: request data plus the
ambient clock/pseudo-random readings consumed by its `modeledPriceUSD`
and the same function/oracle parameters as `PipeInput`. -/
structure BuildInput where
  pickup : LatLng
  dest : LatLng
  radiusM : ℚ
  visible : List RouteGeo
  hourOfDay : ℤ
  rndRush : ℚ
  rndCalm : ℚ
  hav : LatLng → LatLng → ℚ
  walkO : LatLng → LatLng → Option ℚ
  driveO : LatLng → LatLng → Option DriveStats

/-- The page.tsx fare quote with this request's ambient readings. -/
def quoteV1 (env : BuildInput) (d t : ℚ) : FareQuote :=
  modeledPriceUSDv1 env.hourOfDay env.rndRush env.rndCalm d t

/-- Point evaluation of the page.tsx `build(strict)` loop body: minimum
separation, walking-time ceiling `metersToMinWalk(radiusM) + 1`, drive
stats, distance/time factors (0.90 strict / 0.98 loose), and the price
improvement gate (0.08 strict / 0.00 loose) against the parent route. -/
def buildEvalPt (env : BuildInput) (strict : Bool) (r : RouteGeo) (p : LatLng) : Option CandV1 :=
  if env.hav p env.dest < 12 then none else
  let walkMin :=
    match env.walkO p env.dest with
    | some dur => jsRound (dur / 60)
    | none => metersToMinWalk (env.hav p env.dest)
  if metersToMinWalk env.radiusM + 1 < walkMin then none else
  match env.driveO env.pickup p with
  | none => none
  | some drv =>
    if ¬ (drv.distance ≤ (if strict then (0.90 : ℚ) else (0.98 : ℚ)) * r.distance ∧
          drv.duration ≤ (if strict then (0.90 : ℚ) else (0.98 : ℚ)) * r.duration) then none
    else
      let baseModel := (quoteV1 env r.distance r.duration).center
      let candModel := (quoteV1 env drv.distance drv.duration).center
      if (baseModel - candModel) / baseModel < (if strict then (0.08 : ℚ) else 0) then none
      else some ⟨p, walkMin, drv, r.label⟩

/-- The route loop of `build(strict)` collecting `all`. -/
def buildPass (env : BuildInput) (strict : Bool) : List RouteGeo → Option (List CandV1)
  | [] => some []
  | r :: rest =>
    match sampleTail r.coords 16 (0.22 : ℚ) with
    | none => none
    | some pts =>
      match buildPass env strict rest with
      | none => none
      | some ls => some (pts.filterMap (buildEvalPt env strict r) ++ ls)

/-- `savingsLowFirst(candQuote, parentQuote) ?? 0` as used by the `build`
sort: low-vs-low savings floored at 0, or 0 when the parent route is not
among the visible routes. -/
def savedV1 (env : BuildInput) (c : CandV1) : ℚ :=
  match env.visible.find? (fun v => v.label == c.routeIdx) with
  | some rb => max 0 ((quoteV1 env rb.distance rb.duration).low -
      (quoteV1 env c.drive.distance c.drive.duration).low)
  | none => 0

/-- `build` comparator: descending savings, ties by ascending shown low
price. -/
def buildLE (env : BuildInput) (a b : CandV1) : Bool :=
  if savedV1 env a = savedV1 env b then
    decide ((quoteV1 env a.drive.distance a.drive.duration).low ≤
      (quoteV1 env b.drive.distance b.drive.duration).low)
  else decide (savedV1 env b < savedV1 env a)

/-- The `build` per-route cap: top 2 per route label, no overall break. -/
def capV1 (cnt : String → ℕ) : List CandV1 → List CandV1
  | [] => []
  | c :: rest =>
    let cnt' := bump c.routeIdx cnt
    if cnt' c.routeIdx ≤ 2 then c :: capV1 cnt' rest else capV1 cnt' rest

/-- `build(strict)` of the two-pass page.tsx variant: collect, sort,
cap. -/
def build (env : BuildInput) (strict : Bool) : Option (List CandV1) :=
  (buildPass env strict env.visible).map
    (fun all => capV1 (fun _ => 0) (jsSort (buildLE env) all))

/-- The two-pass driver: `build(true)`, falling back to `build(false)`
when the strict pass yields nothing. -/
def buildCandidates (env : BuildInput) : Option (List CandV1) :=
  match build env true with
  | none => none
  | some out => if out.length = 0 then build env false else some out

/-- The parameterised strict stage (collect, sort, cap) of the pipeline;
`discover` uses it at the source constants `(0.88, 0.88, 0.12, 1.75)`. -/
def strictCappedP (inp : PipeInput) (bestPrice df tf pctMin absMin : ℚ) : Option (List Cand) :=
  (tierCands (strictEvalPtP inp bestPrice df tf pctMin absMin) (visibleOf inp)).map
    (fun all => capLoop (fun _ => 0) 0 (jsSort (strictLE inp bestPrice) all))

/-- Concrete three-point route used by concrete pipeline runs. -/
def rteA3 : RouteGeo := ⟨100, 100, [(0, 0), (1, 1), (2, 2)], "Regular A"⟩

/-- Concrete request whose fallback tier returns a point at radial
distance exactly 12. -/
def inpBoundary : PipeInput :=
  ⟨⟨29, -97⟩, ⟨30, -97⟩, 400, true, true, [rteA3], [], 1,
    fun _ _ => 12, fun _ _ => none, fun _ _ => some ⟨1000, 1000⟩⟩

/-- Concrete route pair sharing the sampled tail point `(1, 1)`. -/
def rteA10k : RouteGeo := ⟨10000, 1000, [(0, 0), (1, 1), (9, 9)], "Regular A"⟩

/-- Second route of the duplicate pair. -/
def rteB10k : RouteGeo := ⟨10000, 1000, [(5, 5), (1, 1), (8, 8)], "Regular B"⟩

/-- Concrete request where both routes' strict passes accept the same
coordinate. -/
def inpDup : PipeInput :=
  ⟨⟨29, -97⟩, ⟨30, -97⟩, 400, true, true, [rteA10k, rteB10k], [], 1,
    fun _ _ => 100, fun _ _ => none, fun _ _ => some ⟨5000, 500⟩⟩

/-- Concrete 14-point route whose tail sampling yields three distinct
points. -/
def rteA14 : RouteGeo :=
  ⟨10000, 1000, (List.range 14).map (fun i => ((i : ℚ), (i : ℚ))), "Regular A"⟩

/-- Concrete request whose relaxed tier admits three candidates from one
route. -/
def inpTriple : PipeInput :=
  ⟨⟨29, -97⟩, ⟨30, -97⟩, 400, true, true, [rteA14], [], 1,
    fun _ _ => 100, fun _ _ => none, fun _ _ => some ⟨9000, 900⟩⟩

/-- Concrete request whose strict tier accepts a point with a provider
walking time of 600 minutes (far beyond the radius-derived ceiling). -/
def inpLongWalk : PipeInput :=
  ⟨⟨29, -97⟩, ⟨30, -97⟩, 400, true, true, [rteA10k], [], 1,
    fun _ _ => 100, fun _ _ => some 36000, fun _ _ => some ⟨5000, 500⟩⟩

/-- Concrete 10-point route whose tail sampling yields two distinct
points. -/
def rteA10 : RouteGeo :=
  ⟨10000, 1000, (List.range 10).map (fun i => ((i : ℚ), (i : ℚ))), "Regular A"⟩

/-- Concrete request where every driving query fails. -/
def inpDriveFail : PipeInput :=
  ⟨⟨29, -97⟩, ⟨30, -97⟩, 400, true, true, [rteA10], [], 1,
    fun _ _ => 100, fun _ _ => none, fun _ _ => none⟩

/-- Concrete request where strict and relaxed reject every point (drive
exactly as long as the route) but the fallback tier succeeds. -/
def inpFallbackOnly : PipeInput :=
  ⟨⟨29, -97⟩, ⟨30, -97⟩, 400, true, true, [rteA10], [], 1,
    fun _ _ => 100, fun _ _ => none, fun _ _ => some ⟨10000, 1000⟩⟩

/-- Concrete request with no routes at all. -/
def inpEmpty : PipeInput :=
  ⟨⟨0, 0⟩, ⟨0, 0⟩, 400, true, true, [], [], 1,
    fun _ _ => 0, fun _ _ => none, fun _ _ => none⟩

/-- Concrete `build` input accepting one candidate. -/
def envOneCand : BuildInput :=
  ⟨⟨29, -97⟩, ⟨30, -97⟩, 400, [rteA10k], 3, 0, 0,
    fun _ _ => 100, fun _ _ => none, fun _ _ => some ⟨5000, 500⟩⟩

theorem jsRound_mono {x y : ℚ} (h : x ≤ y) : jsRound x ≤ jsRound y :=
  Int.floor_le_floor (by linarith)

theorem round2_mono {x y : ℚ} (h : x ≤ y) : round2 x ≤ round2 y := by
  have : jsRound (x * 100) ≤ jsRound (y * 100) := jsRound_mono (by linarith)
  have : ((jsRound (x * 100) : ℚ)) ≤ (jsRound (y * 100) : ℚ) := by exact_mod_cast this
  unfold round2
  linarith

theorem seven_le_round2 {x : ℚ} (h : (7 : ℚ) ≤ x) : (7 : ℚ) ≤ round2 x := by
  have h1 : (700 : ℤ) ≤ jsRound (x * 100) := by
    unfold jsRound
    exact Int.le_floor.2 (by push_cast; linarith)
  have h2 : ((700 : ℤ) : ℚ) ≤ (jsRound (x * 100) : ℚ) := by exact_mod_cast h1
  unfold round2
  push_cast at h2 ⊢
  linarith

/-- C2 counterexample: the two-argument page.tsx fare estimate is not a
function of `(distance_m, duration_s)` alone — with the same distance
5000 m and duration 900 s it returns different quotes at hour 8 (rush
surge 1.18) and hour 3 (surge 1.0), refuting "the estimate reads no
clock, randomness, or other hidden mutable state". -/
theorem fare_clock_dependence_cex :
    modeledPriceUSDv1 8 0 0 5000 900 ≠ modeledPriceUSDv1 3 0 0 5000 900 := by
  with_unfolding_all exact of_decide_eq_true rfl

/-- C2 (amended): the four-argument fare model `modeledPriceUSD` of the
multi-tier variant is deterministic — two calls with identical
`(distance_m, duration_s, surge, penaltyUSD)` return identical `low`,
`center` and `high`; it reads no hidden state (it is a function of
exactly these four arguments).  The legacy two-argument variants derive
a surge from the clock and a sine-based draw, so only the four-argument
model satisfies the claim. -/
theorem modeledPriceUSD_deterministic (d₁ t₁ s₁ p₁ d₂ t₂ s₂ p₂ : ℚ)
    (hd : d₁ = d₂) (ht : t₁ = t₂) (hs : s₁ = s₂) (hp : p₁ = p₂) :
    (modeledPriceUSD d₁ t₁ s₁ p₁).low = (modeledPriceUSD d₂ t₂ s₂ p₂).low ∧
    (modeledPriceUSD d₁ t₁ s₁ p₁).center = (modeledPriceUSD d₂ t₂ s₂ p₂).center ∧
    (modeledPriceUSD d₁ t₁ s₁ p₁).high = (modeledPriceUSD d₂ t₂ s₂ p₂).high := by
  subst hd; subst ht; subst hs; subst hp
  exact ⟨rfl, rfl, rfl⟩

/-- Witness for the C2 theorem at concrete arguments. -/
theorem modeledPriceUSD_deterministic_witness :
    (5000 : ℚ) = 5000 ∧
    ((modeledPriceUSD 5000 900 1 0).low = (modeledPriceUSD 5000 900 1 0).low ∧
     (modeledPriceUSD 5000 900 1 0).center = (modeledPriceUSD 5000 900 1 0).center ∧
     (modeledPriceUSD 5000 900 1 0).high = (modeledPriceUSD 5000 900 1 0).high) :=
  ⟨rfl, modeledPriceUSD_deterministic 5000 900 1 0 5000 900 1 0 rfl rfl rfl rfl⟩

/-- C5 counterexample: at the valid input `(0, 0, 1, 0)` the fare model
returns `low = 4.5`, strictly below the configured minimum fare 5 (the
floor applied to `center`), refuting "low is at least the configured
minimum fare". -/
theorem fare_low_below_minFare_cex :
    (modeledPriceUSD 0 0 1 0).low = (4.5 : ℚ) ∧
    (modeledPriceUSD 0 0 1 0).center = 5 ∧ (4.5 : ℚ) < 5 := by
  refine ⟨?_, ?_, ?_⟩ <;> with_unfolding_all exact of_decide_eq_true rfl

/-- C5 (amended): for all valid inputs `low ≤ center ≤ high` holds in
both fare models; `modeledPriceUSD` floors `low` only at 4.5 (which is
below its minimum fare 5 whenever the raw estimate is at most 5), while
`estimatePriceRange` does floor `low` at its configured minimum fare
7. -/
theorem fareQuote_ordered (d t s p : ℚ)
    (hd : 0 ≤ d) (ht : 0 ≤ t) (hs : 1 ≤ s) (hp : 0 ≤ p) :
    ((modeledPriceUSD d t s p).low ≤ (modeledPriceUSD d t s p).center ∧
     (modeledPriceUSD d t s p).center ≤ (modeledPriceUSD d t s p).high ∧
     (4.5 : ℚ) ≤ (modeledPriceUSD d t s p).low) ∧
    ∀ miles driveMin : ℚ, ∀ hour dow : ℤ,
      (estimatePriceRange miles driveMin hour dow).low ≤
        (estimatePriceRange miles driveMin hour dow).center ∧
      (estimatePriceRange miles driveMin hour dow).center ≤
        (estimatePriceRange miles driveMin hour dow).high ∧
      (7 : ℚ) ≤ (estimatePriceRange miles driveMin hour dow).low := by
  constructor
  · simp only [modeledPriceUSD]
    set est := ((2.25 : ℚ) + (1.50 : ℚ) * (d / (1609.34 : ℚ)) + (0.33 : ℚ) * (t / 60) + (1.2 : ℚ)) * s + p with hest
    have hc : (5 : ℚ) ≤ max 5 est := le_max_left _ _
    refine ⟨max_le (by linarith) (by nlinarith), by nlinarith, le_max_left _ _⟩
  · intro miles driveMin hour dow
    simp only [estimatePriceRange]
    set tod := timeOfDayFactor hour dow with htod
    set price0 := (2.25 : ℚ) + (1.55 : ℚ) * miles + (0.28 : ℚ) * driveMin + (2 : ℚ) with hprice0
    set price := max (price0 * tod) (7 : ℚ) with hprice
    have hpr : (7 : ℚ) ≤ price := le_max_right _ _
    have h7 : (7 : ℚ) ≤ round2 price := seven_le_round2 hpr
    set b : ℚ := if (1.2 : ℚ) < tod then (0.28 : ℚ) else (0.18 : ℚ) with hb
    have hb01 : 0 ≤ b ∧ b ≤ 1 := by
      rw [hb]
      split
      · exact ⟨by norm_num, by norm_num⟩
      · exact ⟨by norm_num, by norm_num⟩
    have hm1 : price * (1 - b) ≤ price := by nlinarith [hb01.1, hb01.2]
    have hm2 : price ≤ price * (1 + b) := by nlinarith [hb01.1]
    exact ⟨max_le h7 (round2_mono hm1), round2_mono hm2, le_max_left _ _⟩

/-- Witness for the C5 theorem at concrete arguments. -/
theorem fareQuote_ordered_witness :
    (0 : ℚ) ≤ 5000 ∧
    (((modeledPriceUSD 5000 900 1 0).low ≤ (modeledPriceUSD 5000 900 1 0).center ∧
      (modeledPriceUSD 5000 900 1 0).center ≤ (modeledPriceUSD 5000 900 1 0).high ∧
      (4.5 : ℚ) ≤ (modeledPriceUSD 5000 900 1 0).low) ∧
     ∀ miles driveMin : ℚ, ∀ hour dow : ℤ,
       (estimatePriceRange miles driveMin hour dow).low ≤
         (estimatePriceRange miles driveMin hour dow).center ∧
       (estimatePriceRange miles driveMin hour dow).center ≤
         (estimatePriceRange miles driveMin hour dow).high ∧
       (7 : ℚ) ≤ (estimatePriceRange miles driveMin hour dow).low) :=
  ⟨by norm_num,
   fareQuote_ordered 5000 900 1 0 (by norm_num) (by norm_num) (by norm_num) (by norm_num)⟩

/-- C9: on `(5000, 900, 1, 0)` with the embedded ratecard, the modeled
quote rounds (2 decimals) to center 13.06, low 11.75 and high 14.63, and
`low`/`high` are exactly `center × 0.9` and `center × 1.12`. -/
theorem fare_scenario_5000m_900s :
    round2 (modeledPriceUSD 5000 900 1 0).center = (13.06 : ℚ) ∧
    round2 (modeledPriceUSD 5000 900 1 0).low = (11.75 : ℚ) ∧
    round2 (modeledPriceUSD 5000 900 1 0).high = (14.63 : ℚ) ∧
    (modeledPriceUSD 5000 900 1 0).low = (modeledPriceUSD 5000 900 1 0).center * (0.9 : ℚ) ∧
    (modeledPriceUSD 5000 900 1 0).high = (modeledPriceUSD 5000 900 1 0).center * (1.12 : ℚ) := by
  refine ⟨?_, ?_, ?_, ?_, ?_⟩ <;> with_unfolding_all rfl

theorem dedup5_mem {seen : List (ℤ × ℤ)} {l : List LatLng} {p : LatLng}
    (h : p ∈ dedup5 seen l) : p ∈ l := by
  induction l generalizing seen with
  | nil => simpa [dedup5] using h
  | cons q t ih =>
    simp only [dedup5] at h
    split at h
    · exact List.mem_cons_of_mem _ (ih h)
    · rcases List.mem_cons.1 h with h | h
      · exact h ▸ List.mem_cons_self _ _
      · exact List.mem_cons_of_mem _ (ih h)

theorem dedup5_length (seen : List (ℤ × ℤ)) (l : List LatLng) :
    (dedup5 seen l).length ≤ l.length := by
  induction l generalizing seen with
  | nil => simp [dedup5]
  | cons q t ih =>
    simp only [dedup5]
    split
    · exact (ih seen).trans (Nat.le_succ _)
    · simpa using ih _

theorem dedup5_fresh (seen : List (ℤ × ℤ)) (l : List LatLng) :
    (∀ p ∈ dedup5 seen l, key5 p ∉ seen) ∧
    (dedup5 seen l).Pairwise (fun p q => key5 p ≠ key5 q) := by
  induction l generalizing seen with
  | nil => simp [dedup5]
  | cons q t ih =>
    simp only [dedup5]
    split
    · exact ih seen
    case isFalse hq =>
      obtain ⟨ihf, ihp⟩ := ih (key5 q :: seen)
      constructor
      · intro p hp
        rcases List.mem_cons.1 hp with rfl | hp
        · exact hq
        · exact fun hin => ihf p hp (List.mem_cons_of_mem _ hin)
      · refine List.pairwise_cons.2 ⟨fun p hp hk => ?_, ihp⟩
        exact ihf p hp (by rw [← hk]; exact List.mem_cons_self _ _)

theorem sampleIdx_bounds {len : ℕ} (count i : ℕ) (hs : 1 ≤ len) :
    0 ≤ sampleIdx len count i ∧ sampleIdx len count i ≤ (len : ℤ) - 1 := by
  unfold sampleIdx
  constructor
  · apply le_min
    · omega
    · apply Int.le_floor.2
      push_cast
      have h1 : (0 : ℚ) ≤ (i : ℚ) / ((count : ℚ) + 1) := by positivity
      have h2 : (0 : ℚ) ≤ (len : ℚ) - 1 := by
        have : (1 : ℚ) ≤ (len : ℚ) := by exact_mod_cast hs
        linarith
      positivity
  · exact min_le_left _ _

theorem sampleAt_mem {slice : List (ℚ × ℚ)} (count i : ℕ) (hs : 1 ≤ slice.length) :
    ∃ p, sampleAt slice count i = some p ∧ (p.lng, p.lat) ∈ slice := by
  obtain ⟨h0, h1⟩ := sampleIdx_bounds count i hs
  have hlt : (sampleIdx slice.length count i).toNat < slice.length := by omega
  refine ⟨⟨slice[(sampleIdx slice.length count i).toNat].2,
           slice[(sampleIdx slice.length count i).toNat].1⟩, ?_, ?_⟩
  · simp only [sampleAt]
    rw [if_pos h0, List.getElem?_eq_getElem hlt]
  · simpa using List.getElem_mem hlt

theorem sampleLoop_all {slice : List (ℚ × ℚ)} (count : ℕ) (hs : 1 ≤ slice.length)
    (is : List ℕ) :
    ∃ ps, sampleLoop slice count is = some ps ∧
      ps.length = is.length ∧ ∀ p ∈ ps, (p.lng, p.lat) ∈ slice := by
  induction is with
  | nil => exact ⟨[], rfl, rfl, by simp⟩
  | cons i rest ih =>
    obtain ⟨ps, hps, hlen2, hmem⟩ := ih
    obtain ⟨p, hp, hpm⟩ := sampleAt_mem count i hs
    refine ⟨p :: ps, ?_, by simp [hlen2], ?_⟩
    · simp only [sampleLoop, hp, hps]
    · intro q hq
      rcases List.mem_cons.1 hq with rfl | hq
      · exact hpm
      · exact hmem q hq

/-- C10 (amended): for every geometry with at least two coordinates and
positive sample count, `sampleTail` returns normally with at most `count`
points, each drawn from the tail slice of the geometry — the coordinates
from the slice start index `max(0, ⌊n * (1 - fraction)⌋ - 1)` up to but
excluding the final element — and no two returned points share a
`toFixed(5)` key.  (On a one-point geometry the tail slice is empty and
the loop body destructures `undefined`, so the original claim's "never
throws on one-point geometries" fails.) -/
theorem sampleTail_safe (coords : List (ℚ × ℚ)) (count : ℕ)
    (hlen : 2 ≤ coords.length) (hcount : 1 ≤ count) :
    ∃ pts, sampleTail coords count (0.22 : ℚ) = some pts ∧
      pts.length ≤ count ∧
      (∀ p ∈ pts, (p.lng, p.lat) ∈
        (coords.take (coords.length - 1)).drop
          (max 0 (⌊(coords.length : ℚ) * (1 - (0.22 : ℚ))⌋ - 1)).toNat) ∧
      pts.Pairwise (fun p q => key5 p ≠ key5 q) := by
  have hne : ¬ coords.length = 0 := by omega
  have hfloor : ⌊(coords.length : ℚ) * (1 - (0.22 : ℚ))⌋ ≤ (coords.length : ℤ) - 1 := by
    have hpos : (0 : ℚ) < (coords.length : ℚ) := by
      have : (2 : ℚ) ≤ (coords.length : ℚ) := by exact_mod_cast hlen
      linarith
    have h1 : (coords.length : ℚ) * (1 - (0.22 : ℚ)) < ((coords.length : ℤ) : ℚ) := by
      push_cast
      nlinarith
    have := Int.floor_lt.2 h1
    omega
  have hsi : (max 0 (⌊(coords.length : ℚ) * (1 - (0.22 : ℚ))⌋ - 1)).toNat ≤ coords.length - 2 := by
    omega
  have hslen : 1 ≤ ((coords.take (coords.length - 1)).drop
      (max 0 (⌊(coords.length : ℚ) * (1 - (0.22 : ℚ))⌋ - 1)).toNat).length := by
    rw [List.length_drop, List.length_take]
    omega
  obtain ⟨ps, hps, hpslen, hpsmem⟩ := sampleLoop_all count hslen (List.range' 1 count)
  refine ⟨dedup5 [] ps, ?_, ?_, ?_, ?_⟩
  · simp only [sampleTail]
    rw [if_neg hne, hps]
    rfl
  · have := dedup5_length [] ps
    rw [hpslen, List.length_range'] at this
    exact this
  · intro p hp
    exact hpsmem p (dedup5_mem hp)
  · exact (dedup5_fresh [] ps).2

/-- C10 counterexample: on the non-empty single-point geometry
`[(30, -97)]` with the positive default count 16, `sampleTail` does not
return normally (the tail slice is empty and `slice[-1]` destructuring
throws, modelled as `none`). -/
theorem sampleTail_singleton_cex :
    sampleTail [((30 : ℚ), (-97 : ℚ))] 16 (0.22 : ℚ) = none ∧
    ([((30 : ℚ), (-97 : ℚ))] : List (ℚ × ℚ)).length ≠ 0 ∧ 1 ≤ 16 := by
  refine ⟨?_, by norm_num, by norm_num⟩
  with_unfolding_all rfl

/-- Witness for the C10 theorem on a concrete three-point geometry. -/
theorem sampleTail_safe_witness :
    2 ≤ ([((0 : ℚ), (0 : ℚ)), (1, 1), (2, 2)] : List (ℚ × ℚ)).length ∧ 1 ≤ 16 ∧
    ∃ pts, sampleTail [((0 : ℚ), (0 : ℚ)), (1, 1), (2, 2)] 16 (0.22 : ℚ) = some pts ∧
      pts.length ≤ 16 ∧
      (∀ p ∈ pts, (p.lng, p.lat) ∈
        (([((0 : ℚ), (0 : ℚ)), (1, 1), (2, 2)] : List (ℚ × ℚ)).take
          (([((0 : ℚ), (0 : ℚ)), (1, 1), (2, 2)] : List (ℚ × ℚ)).length - 1)).drop
          (max 0 (⌊(([((0 : ℚ), (0 : ℚ)), (1, 1), (2, 2)] : List (ℚ × ℚ)).length : ℚ) *
            (1 - (0.22 : ℚ))⌋ - 1)).toNat) ∧
      pts.Pairwise (fun p q => key5 p ≠ key5 q) :=
  ⟨by norm_num, by norm_num,
   sampleTail_safe [((0 : ℚ), (0 : ℚ)), (1, 1), (2, 2)] 16 (by norm_num) (by norm_num)⟩

theorem sInsert_perm (le : α → α → Bool) (a : α) (l : List α) :
    (sInsert le a l).Perm (a :: l) := by
  induction l with
  | nil => exact List.Perm.refl _
  | cons b t ih =>
    simp only [sInsert]
    split
    · exact (ih.cons b).trans (List.Perm.swap a b t)
    · exact List.Perm.refl _

theorem jsSortAux_perm (le : α → α → Bool) (l : List α) :
    ∀ acc, (jsSortAux le acc l).Perm (acc ++ l) := by
  induction l with
  | nil => intro acc; simp [jsSortAux]
  | cons x t ih =>
    intro acc
    have h1 := ih (sInsert le x acc)
    have h2 : (sInsert le x acc ++ t).Perm ((x :: acc) ++ t) :=
      (sInsert_perm le x acc).append_right t
    simp only [jsSortAux]
    refine (h1.trans h2).trans ?_
    simpa using List.perm_middle.symm

theorem jsSort_perm (le : α → α → Bool) (l : List α) : (jsSort le l).Perm l := by
  simpa using jsSortAux_perm le l []

theorem mem_jsSort {le : α → α → Bool} {l : List α} {a : α} :
    a ∈ jsSort le l ↔ a ∈ l := (jsSort_perm le l).mem_iff

theorem sInsert_pairwise {le : α → α → Bool}
    (htr : ∀ a b c, le a b = true → le b c = true → le a c = true)
    (hto : ∀ a b, le a b = true ∨ le b a = true)
    (a : α) {l : List α} (hl : l.Pairwise (fun x y => le x y = true)) :
    (sInsert le a l).Pairwise (fun x y => le x y = true) := by
  induction l with
  | nil => simp [sInsert]
  | cons b t ih =>
    rcases List.pairwise_cons.1 hl with ⟨hb, ht⟩
    simp only [sInsert]
    split
    case isTrue hba =>
      refine List.pairwise_cons.2 ⟨?_, ih ht⟩
      intro x hx
      rcases List.mem_cons.1 ((sInsert_perm le a t).mem_iff.1 hx) with rfl | hx
      · exact hba
      · exact hb x hx
    case isFalse hba =>
      have hab : le a b = true := (hto a b).resolve_right (by simpa using hba)
      refine List.pairwise_cons.2 ⟨?_, hl⟩
      intro x hx
      rcases List.mem_cons.1 hx with rfl | hx
      · exact hab
      · exact htr a b x hab (hb x hx)

theorem jsSort_pairwise {le : α → α → Bool}
    (htr : ∀ a b c, le a b = true → le b c = true → le a c = true)
    (hto : ∀ a b, le a b = true ∨ le b a = true)
    (l : List α) : (jsSort le l).Pairwise (fun x y => le x y = true) := by
  suffices h : ∀ acc, acc.Pairwise (fun x y => le x y = true) →
      (jsSortAux le acc l).Pairwise (fun x y => le x y = true) by
    exact h [] (by simp)
  induction l with
  | nil => intro acc hacc; simpa [jsSortAux] using hacc
  | cons x t ih =>
    intro acc hacc
    exact ih _ (sInsert_pairwise htr hto x hacc)

theorem filterMap_imp_sublist {f g : α → Option β}
    (h : ∀ x c, f x = some c → g x = some c) (l : List α) :
    (l.filterMap f).Sublist (l.filterMap g) := by
  induction l with
  | nil => simp
  | cons x t ih =>
    cases hf : f x with
    | none =>
      rw [List.filterMap_cons, hf]
      cases hg : g x with
      | none => rw [List.filterMap_cons, hg]; exact ih
      | some c =>
        rw [List.filterMap_cons, hg]
        exact ih.trans (List.sublist_cons_self c _)
    | some c =>
      have hgc := h x c hf
      rw [List.filterMap_cons, hf, List.filterMap_cons, hgc]
      exact ih.cons₂ c

theorem tierCands_mem {ev : RouteGeo → LatLng → Option Cand} :
    ∀ {routes : List RouteGeo} {L : List Cand}, tierCands ev routes = some L →
      ∀ {c : Cand}, c ∈ L → ∃ r ∈ routes, ∃ p, ev r p = some c := by
  intro routes
  induction routes with
  | nil =>
    intro L h c hc
    simp only [tierCands, Option.some.injEq] at h
    subst h
    simp at hc
  | cons r rest ih =>
    intro L h c hc
    simp only [tierCands] at h
    cases hst : sampleTail r.coords 16 (0.22 : ℚ) with
    | none => rw [hst] at h; simp at h
    | some pts =>
      rw [hst] at h
      cases hrest : tierCands ev rest with
      | none => rw [hrest] at h; simp at h
      | some ls =>
        rw [hrest] at h
        simp only [Option.some.injEq] at h
        subst h
        rcases List.mem_append.1 hc with hc | hc
        · obtain ⟨p, _, hev⟩ := List.mem_filterMap.1 hc
          exact ⟨r, List.mem_cons_self _ _, p, hev⟩
        · obtain ⟨r', hr', p, hev⟩ := ih hrest hc
          exact ⟨r', List.mem_cons_of_mem _ hr', p, hev⟩

theorem tierCands_sub {ev ev' : RouteGeo → LatLng → Option Cand} {routes : List RouteGeo}
    (himp : ∀ r ∈ routes, ∀ p c, ev' r p = some c → ev r p = some c) :
    ∀ {L L'}, tierCands ev routes = some L → tierCands ev' routes = some L' →
      L'.Sublist L := by
  induction routes with
  | nil =>
    intro L L' h h'
    simp only [tierCands, Option.some.injEq] at h h'
    subst h; subst h'
    exact List.Sublist.refl _
  | cons r rest ih =>
    intro L L' h h'
    simp only [tierCands] at h h'
    cases hst : sampleTail r.coords 16 (0.22 : ℚ) with
    | none => rw [hst] at h; simp at h
    | some pts =>
      rw [hst] at h h'
      cases hrest : tierCands ev rest with
      | none => rw [hrest] at h; simp at h
      | some ls =>
        rw [hrest] at h
        cases hrest' : tierCands ev' rest with
        | none => rw [hrest'] at h'; simp at h'
        | some ls' =>
          rw [hrest'] at h'
          simp only [Option.some.injEq] at h h'
          subst h; subst h'
          have h1 : (pts.filterMap (ev' r)).Sublist (pts.filterMap (ev r)) :=
            filterMap_imp_sublist (himp r (List.mem_cons_self _ _)) pts
          have h2 : ls'.Sublist ls :=
            ih (fun r' hr' => himp r' (List.mem_cons_of_mem _ hr')) hrest hrest'
          exact h1.append h2

theorem strictEvalPtP_some {inp : PipeInput} {bp df tf pct absm : ℚ} {r : RouteGeo}
    {p : LatLng} {c : Cand} (h : strictEvalPtP inp bp df tf pct absm r p = some c) :
    c.drop = p ∧ c.reason = Reason.strict ∧ c.routeIdx = r.label ∧
    12 ≤ inp.hav p inp.dest ∧ inp.hav p inp.dest ≤ inp.radiusM := by
  simp only [strictEvalPtP] at h
  split at h
  · exact absurd h (by simp)
  case isFalse hrad =>
    push_neg at hrad
    split at h
    · exact absurd h (by simp)
    · split at h
      · exact absurd h (by simp)
      · split at h
        · exact absurd h (by simp)
        · split at h
          · exact absurd h (by simp)
          · simp only [Option.some.injEq] at h
            subst h
            exact ⟨rfl, rfl, rfl, hrad.2, hrad.1⟩

theorem relaxedEvalPt_some {inp : PipeInput} {r : RouteGeo}
    {p : LatLng} {c : Cand} (h : relaxedEvalPt inp r p = some c) :
    c.drop = p ∧ c.reason = Reason.fallback ∧ c.routeIdx = r.label ∧
    12 ≤ inp.hav p inp.dest ∧ inp.hav p inp.dest ≤ inp.radiusM := by
  simp only [relaxedEvalPt] at h
  split at h
  · exact absurd h (by simp)
  case isFalse hrad =>
    push_neg at hrad
    split at h
    · exact absurd h (by simp)
    · split at h
      · exact absurd h (by simp)
      · simp only [Option.some.injEq] at h
        subst h
        exact ⟨rfl, rfl, rfl, hrad.2, hrad.1⟩

theorem closestEvalPt_some {inp : PipeInput} {r : RouteGeo}
    {p : LatLng} {c : Cand} (h : closestEvalPt inp r p = some c) :
    c.drop = p ∧ c.reason = Reason.fallback ∧ c.routeIdx = r.label ∧
    12 ≤ inp.hav p inp.dest ∧ inp.hav p inp.dest ≤ inp.radiusM := by
  simp only [closestEvalPt] at h
  split at h
  · exact absurd h (by simp)
  case isFalse hrad =>
    push_neg at hrad
    split at h
    · exact absurd h (by simp)
    · simp only [Option.some.injEq] at h
      subst h
      exact ⟨rfl, rfl, rfl, hrad.2, hrad.1⟩

theorem strictEvalPtP_mono {inp : PipeInput} {bp : ℚ} {df tf pct absm df' tf' pct' absm' : ℚ}
    (hdf : df' ≤ df) (htf : tf' ≤ tf) (hpct : pct ≤ pct') (habs : absm ≤ absm')
    {r : RouteGeo} (hrd : 0 ≤ r.distance) (hrt : 0 ≤ r.duration) {p : LatLng} {c : Cand}
    (h : strictEvalPtP inp bp df' tf' pct' absm' r p = some c) :
    strictEvalPtP inp bp df tf pct absm r p = some c := by
  by_cases hrad : inp.radiusM < inp.hav p inp.dest ∨ inp.hav p inp.dest < 12
  · simp only [strictEvalPtP, if_pos hrad] at h
    exact absurd h (by simp)
  · cases hdrv : inp.driveO inp.pickup p with
    | none =>
      simp only [strictEvalPtP, if_neg hrad, hdrv] at h
      exact absurd h (by simp)
    | some drv =>
      simp only [strictEvalPtP, if_neg hrad, hdrv] at h ⊢
      by_cases hfac : drv.distance ≤ df' * r.distance ∧ drv.duration ≤ tf' * r.duration
      case neg =>
        rw [if_pos hfac] at h
        exact absurd h (by simp)
      case pos =>
        rw [if_neg (not_not_intro hfac)] at h
        have hA : drv.distance ≤ df * r.distance :=
          le_trans hfac.1 (mul_le_mul_of_nonneg_right hdf hrd)
        have hB : drv.duration ≤ tf * r.duration :=
          le_trans hfac.2 (mul_le_mul_of_nonneg_right htf hrt)
        rw [if_neg (not_not_intro ⟨hA, hB⟩)]
        by_cases habs2 : bp -
            (modeledPriceUSD drv.distance drv.duration inp.surge (zonePenaltyUSD p)).center < absm'
        · rw [if_pos habs2] at h
          exact absurd h (by simp)
        · rw [if_neg habs2] at h
          rw [if_neg (not_lt.2 (le_trans habs (not_lt.1 habs2)))]
          by_cases hpct2 : (bp -
              (modeledPriceUSD drv.distance drv.duration inp.surge (zonePenaltyUSD p)).center) / bp < pct'
          · rw [if_pos hpct2] at h
            exact absurd h (by simp)
          · rw [if_neg hpct2] at h
            rw [if_neg (not_lt.2 (le_trans hpct (not_lt.1 hpct2)))]
            exact h

theorem bump_self (lab : String) (cnt : String → ℕ) : bump lab cnt lab = cnt lab + 1 := by
  simp [bump]

theorem bump_other {s lab : String} (h : s ≠ lab) (cnt : String → ℕ) :
    bump lab cnt s = cnt s := by
  simp [bump, h]

theorem bump_comm (a b : String) (cnt : String → ℕ) :
    bump a (bump b cnt) = bump b (bump a cnt) := by
  funext s
  by_cases ha : s = a <;> by_cases hb : s = b <;>
    simp [bump, ha, hb] <;> split <;> omega

theorem capLoop_sublist : ∀ (l : List Cand) (cnt : String → ℕ) (len : ℕ),
    (capLoop cnt len l).Sublist l := by
  intro l
  induction l with
  | nil => intro cnt len; simp [capLoop]
  | cons c rest ih =>
    intro cnt len
    simp only [capLoop]
    split
    · apply List.Sublist.cons₂
      split
      · exact List.nil_sublist _
      · exact ih _ _
    · split
      · exact List.nil_sublist _
      · exact (ih _ _).cons _

theorem capLoop_len_bound : ∀ (l : List Cand) (cnt : String → ℕ) (len : ℕ),
    len ≤ 3 → (capLoop cnt len l).length ≤ 4 - len := by
  intro l
  induction l with
  | nil => intro cnt len h; simp [capLoop]
  | cons c rest ih =>
    intro cnt len h
    simp only [capLoop]
    split
    · split
      case isTrue hbr =>
        simp only [List.length_cons, List.length_nil]
        omega
      case isFalse hbr =>
        have := ih (bump c.routeIdx cnt) (len + 1) (by omega)
        simp only [List.length_cons]
        omega
    · split
      · simp
      · have := ih (bump c.routeIdx cnt) len h
        omega

theorem capLoop_bump_ge2 : ∀ (l : List Cand) (cnt : String → ℕ) (lab : String) (len : ℕ),
    2 ≤ cnt lab → capLoop (bump lab cnt) len l = capLoop cnt len l := by
  intro l
  induction l with
  | nil => intro cnt lab len h; rfl
  | cons c rest ih =>
    intro cnt lab len h
    simp only [capLoop]
    by_cases heq : c.routeIdx = lab
    · have h1 : ¬ (bump c.routeIdx (bump lab cnt) c.routeIdx ≤ 2) := by
        rw [bump_self, heq, bump_self]
        omega
      have h2 : ¬ (bump c.routeIdx cnt c.routeIdx ≤ 2) := by
        rw [bump_self, heq]
        omega
      rw [if_neg h1, if_neg h2]
      split
      · rfl
      · rw [bump_comm]
        exact ih (bump c.routeIdx cnt) lab len (by rw [heq, bump_self]; omega)
    · have hv : bump lab cnt c.routeIdx = cnt c.routeIdx := bump_other heq cnt
      have hd : bump c.routeIdx (bump lab cnt) c.routeIdx = bump c.routeIdx cnt c.routeIdx := by
        rw [bump_self, bump_self, hv]
      rw [hd]
      by_cases hpush : bump c.routeIdx cnt c.routeIdx ≤ 2
      · rw [if_pos hpush, if_pos hpush]
        split
        · rfl
        · rw [bump_comm]
          rw [ih (bump c.routeIdx cnt) lab (len + 1) (by rw [bump_other (fun e => heq e.symm) cnt]; exact h)]
      · rw [if_neg hpush, if_neg hpush]
        split
        · rfl
        · rw [bump_comm]
          rw [ih (bump c.routeIdx cnt) lab len (by rw [bump_other (fun e => heq e.symm) cnt]; exact h)]

theorem capLoop_len_bump : ∀ (l : List Cand) (cnt : String → ℕ) (lab : String) (len : ℕ),
    len ≤ 3 →
    (capLoop cnt len l).length ≤ 1 + (capLoop (bump lab cnt) (len + 1) l).length := by
  intro l
  induction l with
  | nil => intro cnt lab len hlen; simp [capLoop]
  | cons y rest ih =>
    intro cnt lab len hlen
    simp only [capLoop]
    by_cases heq : y.routeIdx = lab
    · subst heq
      by_cases h0 : cnt y.routeIdx = 0
      · have dL : bump y.routeIdx cnt y.routeIdx ≤ 2 := by rw [bump_self]; omega
        have dR : bump y.routeIdx (bump y.routeIdx cnt) y.routeIdx ≤ 2 := by
          rw [bump_self, bump_self]; omega
        rw [if_pos dL, if_pos dR]
        simp only [List.length_cons]
        by_cases hl3 : len = 3
        · subst hl3
          rw [if_pos (by omega : 4 ≤ 3 + 1), if_pos (by omega : 4 ≤ 3 + 1 + 1)]
          simp
        · by_cases hl2 : len = 2
          · subst hl2
            rw [if_neg (by omega : ¬ 4 ≤ 2 + 1), if_pos (by omega : 4 ≤ 2 + 1 + 1)]
            have := capLoop_len_bound rest (bump y.routeIdx cnt) (2 + 1) (by omega)
            simp only [List.length_nil]
            omega
          · rw [if_neg (by omega : ¬ 4 ≤ len + 1), if_neg (by omega : ¬ 4 ≤ len + 1 + 1)]
            have := ih (bump y.routeIdx cnt) y.routeIdx (len + 1) (by omega)
            omega
      · by_cases h1 : cnt y.routeIdx = 1
        · have dL : bump y.routeIdx cnt y.routeIdx ≤ 2 := by rw [bump_self]; omega
          have dR : ¬ bump y.routeIdx (bump y.routeIdx cnt) y.routeIdx ≤ 2 := by
            rw [bump_self, bump_self]; omega
          rw [if_pos dL, if_neg dR]
          rw [capLoop_bump_ge2 rest (bump y.routeIdx cnt) y.routeIdx (len + 1)
            (by rw [bump_self]; omega)]
          simp only [List.length_cons]
          by_cases hbr : 4 ≤ len + 1
          · rw [if_pos hbr]
            simp
          · rw [if_neg hbr]
            omega
        · have dL : ¬ bump y.routeIdx cnt y.routeIdx ≤ 2 := by rw [bump_self]; omega
          have dR : ¬ bump y.routeIdx (bump y.routeIdx cnt) y.routeIdx ≤ 2 := by
            rw [bump_self, bump_self]; omega
          rw [if_neg dL, if_neg dR]
          rw [if_neg (by omega : ¬ 4 ≤ len)]
          by_cases hl3 : len = 3
          · subst hl3
            rw [if_pos (by omega : 4 ≤ 3 + 1)]
            have := capLoop_len_bound rest (bump y.routeIdx cnt) 3 (by omega)
            simp only [List.length_nil]
            omega
          · rw [if_neg (by omega : ¬ 4 ≤ len + 1)]
            exact ih (bump y.routeIdx cnt) y.routeIdx len (by omega)
    · have hbl : bump lab cnt y.routeIdx = cnt y.routeIdx := bump_other heq cnt
      have dRval : bump y.routeIdx (bump lab cnt) y.routeIdx = bump y.routeIdx cnt y.routeIdx := by
        rw [bump_self, bump_self, hbl]
      by_cases hpush : bump y.routeIdx cnt y.routeIdx ≤ 2
      · have dR2 : bump y.routeIdx (bump lab cnt) y.routeIdx ≤ 2 := by
          rw [dRval]; exact hpush
        rw [if_pos hpush, if_pos dR2]
        simp only [List.length_cons]
        by_cases hl3 : len = 3
        · subst hl3
          rw [if_pos (by omega : 4 ≤ 3 + 1), if_pos (by omega : 4 ≤ 3 + 1 + 1)]
          simp
        · by_cases hl2 : len = 2
          · subst hl2
            rw [if_neg (by omega : ¬ 4 ≤ 2 + 1), if_pos (by omega : 4 ≤ 2 + 1 + 1)]
            have := capLoop_len_bound rest (bump y.routeIdx cnt) (2 + 1) (by omega)
            simp only [List.length_nil]
            omega
          · rw [if_neg (by omega : ¬ 4 ≤ len + 1), if_neg (by omega : ¬ 4 ≤ len + 1 + 1)]
            have := ih (bump y.routeIdx cnt) lab (len + 1) (by omega)
            rw [bump_comm y.routeIdx lab cnt]
            omega
      · have dR2n : ¬ bump y.routeIdx (bump lab cnt) y.routeIdx ≤ 2 := by
          rw [dRval]; exact hpush
        rw [if_neg hpush, if_neg dR2n]
        rw [if_neg (by omega : ¬ 4 ≤ len)]
        by_cases hl3 : len = 3
        · subst hl3
          rw [if_pos (by omega : 4 ≤ 3 + 1)]
          have := capLoop_len_bound rest (bump y.routeIdx cnt) 3 (by omega)
          simp only [List.length_nil]
          omega
        · rw [if_neg (by omega : ¬ 4 ≤ len + 1)]
          have := ih (bump y.routeIdx cnt) lab len (by omega)
          rw [bump_comm y.routeIdx lab cnt]
          omega

theorem capLoop_len_cons (x : Cand) (l : List Cand) (cnt : String → ℕ) (len : ℕ)
    (hlen : len ≤ 3) :
    (capLoop cnt len l).length ≤ (capLoop cnt len (x :: l)).length := by
  simp only [capLoop]
  by_cases hpush : bump x.routeIdx cnt x.routeIdx ≤ 2
  · rw [if_pos hpush]
    simp only [List.length_cons]
    by_cases hbr : 4 ≤ len + 1
    · rw [if_pos hbr]
      have := capLoop_len_bound l cnt len hlen
      simp only [List.length_nil]
      omega
    · rw [if_neg hbr]
      have := capLoop_len_bump l cnt x.routeIdx len hlen
      omega
  · rw [if_neg hpush, if_neg (by omega : ¬ 4 ≤ len)]
    have h2 : 2 ≤ cnt x.routeIdx := by
      rw [bump_self] at hpush
      omega
    rw [capLoop_bump_ge2 l cnt x.routeIdx len h2]

theorem capLoop_len_sublist {l' l : List Cand} (h : l'.Sublist l) :
    ∀ (cnt : String → ℕ) (len : ℕ), len ≤ 3 →
      (capLoop cnt len l').length ≤ (capLoop cnt len l).length := by
  induction h with
  | slnil => intro cnt len hlen; exact le_rfl
  | cons x hsub ih =>
    intro cnt len hlen
    exact (ih cnt len hlen).trans (capLoop_len_cons x _ cnt len hlen)
  | cons₂ x hsub ih =>
    intro cnt len hlen
    simp only [capLoop]
    by_cases hpush : bump x.routeIdx cnt x.routeIdx ≤ 2
    · rw [if_pos hpush, if_pos hpush]
      simp only [List.length_cons]
      by_cases hbr : 4 ≤ len + 1
      · rw [if_pos hbr, if_pos hbr]
      · rw [if_neg hbr, if_neg hbr]
        have := ih (bump x.routeIdx cnt) (len + 1) (by omega)
        omega
    · rw [if_neg hpush, if_neg hpush]
      by_cases hbr : 4 ≤ len
      · rw [if_pos hbr, if_pos hbr]
      · rw [if_neg hbr, if_neg hbr]
        exact ih (bump x.routeIdx cnt) len hlen

theorem capLoop_len_perm {l l' : List Cand} (hp : l.Perm l') :
    ∀ (cnt : String → ℕ) (len : ℕ), len ≤ 3 →
      (capLoop cnt len l).length = (capLoop cnt len l').length := by
  induction hp with
  | nil => intro cnt len hlen; rfl
  | cons x hperm ih =>
    intro cnt len hlen
    simp only [capLoop]
    by_cases hpush : bump x.routeIdx cnt x.routeIdx ≤ 2
    · rw [if_pos hpush, if_pos hpush]
      simp only [List.length_cons]
      by_cases hbr : 4 ≤ len + 1
      · rw [if_pos hbr, if_pos hbr]
      · rw [if_neg hbr, if_neg hbr]
        rw [ih (bump x.routeIdx cnt) (len + 1) (by omega)]
    · rw [if_neg hpush, if_neg hpush]
      by_cases hbr : 4 ≤ len
      · rw [if_pos hbr, if_pos hbr]
      · rw [if_neg hbr, if_neg hbr]
        exact ih (bump x.routeIdx cnt) len hlen
  | swap x y t =>
    intro cnt len hlen
    have hcomm := bump_comm x.routeIdx y.routeIdx cnt
    by_cases heq : x.routeIdx = y.routeIdx
    · simp only [capLoop]
      rw [heq]
      split_ifs <;> simp only [List.length_cons, List.length_nil] <;> omega
    · have e1 : bump y.routeIdx cnt x.routeIdx = cnt x.routeIdx := bump_other heq cnt
      have e2 : bump x.routeIdx cnt y.routeIdx = cnt y.routeIdx :=
        bump_other (fun e => heq e.symm) cnt
      simp only [capLoop, bump_self, e1, e2, hcomm]
      split_ifs <;> simp only [List.length_cons, List.length_nil] <;> omega
  | trans h1 h2 ih1 ih2 =>
    intro cnt len hlen
    exact (ih1 cnt len hlen).trans (ih2 cnt len hlen)

theorem mergeLoop_decomp (stop : ℕ) :
    ∀ (inc : List Cand) (seen : List (ℤ × ℤ)) (results : List Cand),
      ∃ s, mergeLoop stop seen results inc = results ++ s ∧ s.Sublist inc := by
  intro inc
  induction inc with
  | nil => intro seen results; exact ⟨[], by simp [mergeLoop], List.nil_sublist _⟩
  | cons c rest ih =>
    intro seen results
    simp only [mergeLoop]
    by_cases hk : key6 c.drop ∈ seen
    · rw [if_pos hk]
      obtain ⟨s, hs, hsub⟩ := ih seen results
      exact ⟨s, hs, hsub.cons c⟩
    · rw [if_neg hk]
      by_cases hstop : stop ≤ (results ++ [c]).length
      · rw [if_pos hstop]
        exact ⟨[c], rfl, (List.nil_sublist rest).cons₂ c⟩
      · rw [if_neg hstop]
        obtain ⟨s, hs, hsub⟩ := ih (key6 c.drop :: seen) (results ++ [c])
        exact ⟨c :: s, by rw [hs]; simp, hsub.cons₂ c⟩

theorem mergeLoop_pairwise {R : Cand → Cand → Prop}
    (hR : ∀ c₁ c₂, key6 c₁.drop ≠ key6 c₂.drop → R c₁ c₂) (stop : ℕ) :
    ∀ (inc : List Cand) (seen : List (ℤ × ℤ)) (results : List Cand),
      (∀ c ∈ results, key6 c.drop ∈ seen) → results.Pairwise R →
      (mergeLoop stop seen results inc).Pairwise R := by
  intro inc
  induction inc with
  | nil => intro seen results hinv hp; simpa [mergeLoop] using hp
  | cons c rest ih =>
    intro seen results hinv hp
    simp only [mergeLoop]
    by_cases hk : key6 c.drop ∈ seen
    · rw [if_pos hk]
      exact ih seen results hinv hp
    · rw [if_neg hk]
      have hnew : (results ++ [c]).Pairwise R := by
        rw [List.pairwise_append]
        refine ⟨hp, by simp, ?_⟩
        intro a ha b hb
        rw [List.mem_singleton] at hb
        subst hb
        exact hR a b (fun he => hk (he ▸ hinv a ha))
      by_cases hstop : stop ≤ (results ++ [c]).length
      · rw [if_pos hstop]
        exact hnew
      · rw [if_neg hstop]
        refine ih _ _ ?_ hnew
        intro d hd
        rcases List.mem_append.1 hd with hd | hd
        · exact List.mem_cons_of_mem _ (hinv d hd)
        · rw [List.mem_singleton] at hd
          subst hd
          exact List.mem_cons_self _ _

theorem insert_sdiff_card (k : ℤ × ℤ) (T S : Finset (ℤ × ℤ)) (hk : k ∉ S) :
    ((insert k T) \ S).card = (T \ insert k S).card + 1 := by
  have h1 : (insert k T) \ S = insert k (T \ S) := by
    ext x
    simp only [Finset.mem_sdiff, Finset.mem_insert]
    constructor
    · rintro ⟨hx | hx, hxs⟩
      · exact Or.inl hx
      · exact Or.inr ⟨hx, hxs⟩
    · rintro (rfl | ⟨hx, hxs⟩)
      · exact ⟨Or.inl rfl, hk⟩
      · exact ⟨Or.inr hx, hxs⟩
  have h2 : insert k (T \ S) = insert k ((T \ S).erase k) := by
    ext x
    simp only [Finset.mem_insert, Finset.mem_erase]
    constructor
    · rintro (rfl | hx)
      · exact Or.inl rfl
      · by_cases hxk : x = k
        · exact Or.inl hxk
        · exact Or.inr ⟨hxk, hx⟩
    · rintro (rfl | ⟨_, hx⟩)
      · exact Or.inl rfl
      · exact Or.inr hx
  rw [h1, h2, Finset.card_insert_of_not_mem (Finset.not_mem_erase _ _), Finset.sdiff_insert]

theorem mergeLoop_len_stop (stop : ℕ) :
    ∀ (inc : List Cand) (seen : List (ℤ × ℤ)) (results : List Cand),
      results.length < stop →
      stop ≤ results.length +
        ((inc.map (fun c => key6 c.drop)).toFinset \ seen.toFinset).card →
      (mergeLoop stop seen results inc).length = stop := by
  intro inc
  induction inc with
  | nil =>
    intro seen results h1 h2
    simp only [List.map_nil, List.toFinset_nil, Finset.empty_sdiff, Finset.card_empty] at h2
    omega
  | cons c rest ih =>
    intro seen results h1 h2
    simp only [List.map_cons, List.toFinset_cons] at h2
    simp only [mergeLoop]
    by_cases hk : key6 c.drop ∈ seen
    · rw [if_pos hk]
      apply ih seen results h1
      have he : insert (key6 c.drop) (rest.map (fun c => key6 c.drop)).toFinset \ seen.toFinset =
          (rest.map (fun c => key6 c.drop)).toFinset \ seen.toFinset := by
        ext x
        simp only [Finset.mem_sdiff, Finset.mem_insert]
        constructor
        · rintro ⟨rfl | hx, hxs⟩
          · exact absurd (List.mem_toFinset.2 hk) hxs
          · exact ⟨hx, hxs⟩
        · rintro ⟨hx, hxs⟩
          exact ⟨Or.inr hx, hxs⟩
      rw [he] at h2
      exact h2
    · rw [if_neg hk]
      by_cases hstop : stop ≤ (results ++ [c]).length
      · rw [if_pos hstop]
        simp only [List.length_append, List.length_singleton] at hstop ⊢
        omega
      · rw [if_neg hstop]
        apply ih (key6 c.drop :: seen) (results ++ [c])
        · simp only [List.length_append, List.length_singleton] at hstop ⊢
          omega
        · have hcard := insert_sdiff_card (key6 c.drop)
            (rest.map (fun c => key6 c.drop)).toFinset seen.toFinset
            (fun hmem => hk (List.mem_toFinset.1 hmem))
        
          simp only [List.toFinset_cons]
          simp only [List.length_append, List.length_singleton]
          omega

theorem capLoop_countP : ∀ (l : List Cand) (cnt : String → ℕ) (len : ℕ) (lab : String),
    (capLoop cnt len l).countP (fun c => c.routeIdx == lab) + min 2 (cnt lab) ≤ 2 := by
  intro l
  induction l with
  | nil => intro cnt len lab; simp only [capLoop, List.countP_nil]; omega
  | cons c rest ih =>
    intro cnt len lab
    simp only [capLoop]
    by_cases heq : c.routeIdx = lab
    · by_cases hpush : bump c.routeIdx cnt c.routeIdx ≤ 2
      · rw [if_pos hpush]
        rw [bump_self] at hpush
        rw [List.countP_cons]
        simp only [heq, beq_self_eq_true, if_true]
        split
        · simp only [List.countP_nil]
          rw [← heq]
          omega
        · have hih := ih (bump c.routeIdx cnt) (len + 1) lab
          rw [← heq, bump_self] at hih
          rw [← heq]
          omega
      · rw [if_neg hpush]
        rw [bump_self] at hpush
        split
        · simp only [List.countP_nil]
          omega
        · have hih := ih (bump c.routeIdx cnt) len lab
          rw [← heq, bump_self] at hih
          rw [← heq]
          omega
    · have hb : bump c.routeIdx cnt lab = cnt lab := bump_other (fun e => heq e.symm) cnt
      by_cases hpush : bump c.routeIdx cnt c.routeIdx ≤ 2
      · rw [if_pos hpush]
        rw [List.countP_cons]
        have hpc : (c.routeIdx == lab) = false := by
          simp [heq]
        simp only [hpc, Bool.false_eq_true, if_false]
        split
        · simp only [List.countP_nil]
          omega
        · have hih := ih (bump c.routeIdx cnt) (len + 1) lab
          rw [hb] at hih
          omega
      · rw [if_neg hpush]
        split
        · simp only [List.countP_nil]
          omega
        · have hih := ih (bump c.routeIdx cnt) len lab
          rw [hb] at hih
          omega

theorem discover_shape {inp : PipeInput} {l : List Cand} (h : discover inp = some l) :
    (bestRegOf inp = none ∧ l = []) ∨
    ∃ bestReg strictAll, bestRegOf inp = some bestReg ∧
      strictTier inp (bestPriceOf inp bestReg) = some strictAll ∧
      ((¬ (stage0 inp (bestPriceOf inp bestReg) strictAll).length < 2 ∧
        l = (stage0 inp (bestPriceOf inp bestReg) strictAll).take 4) ∨
       ((stage0 inp (bestPriceOf inp bestReg) strictAll).length < 2 ∧
        ∃ relaxedAll, relaxedTier inp = some relaxedAll ∧
          ((¬ (stage1 inp (stage0 inp (bestPriceOf inp bestReg) strictAll) relaxedAll).length < 2 ∧
            l = (stage1 inp (stage0 inp (bestPriceOf inp bestReg) strictAll) relaxedAll).take 4) ∨
           ((stage1 inp (stage0 inp (bestPriceOf inp bestReg) strictAll) relaxedAll).length < 2 ∧
            ∃ closestAll, closestTier inp = some closestAll ∧
              l = (stage2 inp
                    (stage1 inp (stage0 inp (bestPriceOf inp bestReg) strictAll) relaxedAll)
                    closestAll).take 4)))) := by
  unfold discover at h
  cases hbr : bestRegOf inp with
  | none =>
    rw [hbr] at h
    simp only [Option.some.injEq] at h
    exact Or.inl ⟨rfl, h.symm⟩
  | some bestReg =>
    rw [hbr] at h
    simp only [] at h
    cases hst : strictTier inp (bestPriceOf inp bestReg) with
    | none => rw [hst] at h; simp at h
    | some strictAll =>
      rw [hst] at h
      refine Or.inr ⟨bestReg, strictAll, rfl, hst, ?_⟩
      by_cases h0 : (stage0 inp (bestPriceOf inp bestReg) strictAll).length < 2
      · refine Or.inr ⟨h0, ?_⟩
        simp only [if_pos h0] at h
        cases hrt : relaxedTier inp with
        | none => rw [hrt] at h; simp at h
        | some relaxedAll =>
          rw [hrt] at h
          refine ⟨relaxedAll, rfl, ?_⟩
          by_cases h1 : (stage1 inp (stage0 inp (bestPriceOf inp bestReg) strictAll)
              relaxedAll).length < 2
          · refine Or.inr ⟨h1, ?_⟩
            simp only [if_pos h1] at h
            cases hct : closestTier inp with
            | none => rw [hct] at h; simp at h
            | some closestAll =>
              rw [hct] at h
              simp only [Option.some.injEq] at h
              exact ⟨closestAll, rfl, h.symm⟩
          · simp only [if_neg h1, Option.some.injEq] at h
            exact Or.inl ⟨h1, h.symm⟩
      · simp only [if_neg h0, Option.some.injEq] at h
        exact Or.inl ⟨h0, h.symm⟩

theorem strictTier_bounds {inp : PipeInput} {bp : ℚ} {L : List Cand}
    (h : strictTier inp bp = some L) {c : Cand} (hc : c ∈ L) :
    (12 ≤ inp.hav c.drop inp.dest ∧ inp.hav c.drop inp.dest ≤ inp.radiusM) ∧
    c.reason = Reason.strict := by
  simp only [strictTier] at h
  obtain ⟨r, _, p, hev⟩ := tierCands_mem h hc
  simp only [strictEvalPt] at hev
  obtain ⟨hdrop, hreason, _, h1, h2⟩ := strictEvalPtP_some hev
  subst hdrop
  exact ⟨⟨h1, h2⟩, hreason⟩

theorem relaxedTier_bounds {inp : PipeInput} {L : List Cand}
    (h : relaxedTier inp = some L) {c : Cand} (hc : c ∈ L) :
    (12 ≤ inp.hav c.drop inp.dest ∧ inp.hav c.drop inp.dest ≤ inp.radiusM) ∧
    c.reason = Reason.fallback := by
  simp only [relaxedTier] at h
  obtain ⟨r, _, p, hev⟩ := tierCands_mem h hc
  obtain ⟨hdrop, hreason, _, h1, h2⟩ := relaxedEvalPt_some hev
  subst hdrop
  exact ⟨⟨h1, h2⟩, hreason⟩

theorem closestTier_bounds {inp : PipeInput} {L : List Cand}
    (h : closestTier inp = some L) {c : Cand} (hc : c ∈ L) :
    (12 ≤ inp.hav c.drop inp.dest ∧ inp.hav c.drop inp.dest ≤ inp.radiusM) ∧
    c.reason = Reason.fallback := by
  simp only [closestTier] at h
  obtain ⟨r, _, p, hev⟩ := tierCands_mem h hc
  obtain ⟨hdrop, hreason, _, h1, h2⟩ := closestEvalPt_some hev
  subst hdrop
  exact ⟨⟨h1, h2⟩, hreason⟩

theorem mem_stage0 {inp : PipeInput} {bp : ℚ} {strictAll : List Cand} {c : Cand}
    (h : c ∈ stage0 inp bp strictAll) : c ∈ strictAll := by
  simp only [stage0] at h
  exact mem_jsSort.1 ((capLoop_sublist _ _ _).subset h)

theorem mem_stage1 {inp : PipeInput} {r0 rAll : List Cand} {c : Cand}
    (h : c ∈ stage1 inp r0 rAll) : c ∈ r0 ∨ c ∈ rAll := by
  simp only [stage1] at h
  obtain ⟨s, hs, hsub⟩ := mergeLoop_decomp (max 2 4) (jsSort (priceLE inp) rAll) (keysOf r0) r0
  rw [hs] at h
  rcases List.mem_append.1 h with h | h
  · exact Or.inl h
  · exact Or.inr (mem_jsSort.1 (hsub.subset h))

theorem mem_stage2 {inp : PipeInput} {r1 cAll : List Cand} {c : Cand}
    (h : c ∈ stage2 inp r1 cAll) : c ∈ r1 ∨ c ∈ cAll := by
  simp only [stage2] at h
  obtain ⟨s, hs, hsub⟩ := mergeLoop_decomp 2 (jsSort (closeLE inp) cAll) (keysOf r1) r1
  rw [hs] at h
  rcases List.mem_append.1 h with h | h
  · exact Or.inl h
  · exact Or.inr (mem_jsSort.1 (hsub.subset h))

/-- C3 (amended): every candidate in the final list has radial distance
to the destination within the closed interval `[12, walkRadius_m]`: at
least the separation floor 12 (points at exactly 12 m are accepted, since
the source rejects only `radial < 12`) and at most the walk radius. -/
theorem candidate_radial_in_closed_interval (inp : PipeInput) (l : List Cand) (c : Cand)
    (hd : discover inp = some l) (hc : c ∈ l) :
    12 ≤ inp.hav c.drop inp.dest ∧ inp.hav c.drop inp.dest ≤ inp.radiusM := by
  rcases discover_shape hd with ⟨_, rfl⟩ | ⟨bestReg, strictAll, _, hst, hrest⟩
  · simp at hc
  · rcases hrest with ⟨_, rfl⟩ | ⟨_, rAll, hrt, hrest⟩
    · exact (strictTier_bounds hst (mem_stage0 ((List.take_sublist _ _).subset hc))).1
    · rcases hrest with ⟨_, rfl⟩ | ⟨_, cAll, hct, rfl⟩
      · rcases mem_stage1 ((List.take_sublist _ _).subset hc) with h | h
        · exact (strictTier_bounds hst (mem_stage0 h)).1
        · exact (relaxedTier_bounds hrt h).1
      · rcases mem_stage2 ((List.take_sublist _ _).subset hc) with h | h
        · rcases mem_stage1 h with h | h
          · exact (strictTier_bounds hst (mem_stage0 h)).1
          · exact (relaxedTier_bounds hrt h).1
        · exact (closestTier_bounds hct h).1

theorem strictLE_dup_true : strictLE inpDup (bestPriceOf inpDup rteA10k)
    ⟨⟨1, 1⟩, 1, ⟨5000, 500⟩, "Regular A", 1, Reason.strict⟩
    ⟨⟨1, 1⟩, 1, ⟨5000, 500⟩, "Regular B", 1, Reason.strict⟩ = true := by
  simp only [strictLE]
  have h : bestPriceOf inpDup rteA10k - candPrice inpDup
        ⟨⟨1, 1⟩, 1, ⟨5000, 500⟩, "Regular A", 1, Reason.strict⟩ =
      bestPriceOf inpDup rteA10k - candPrice inpDup
        ⟨⟨1, 1⟩, 1, ⟨5000, 500⟩, "Regular B", 1, Reason.strict⟩ := rfl
  rw [if_pos h]
  exact decide_eq_true (le_refl _)

theorem stage0_dup_eq : stage0 inpDup (bestPriceOf inpDup rteA10k)
    [⟨⟨1, 1⟩, 1, ⟨5000, 500⟩, "Regular A", 1, Reason.strict⟩,
     ⟨⟨1, 1⟩, 1, ⟨5000, 500⟩, "Regular B", 1, Reason.strict⟩] =
    [⟨⟨1, 1⟩, 1, ⟨5000, 500⟩, "Regular A", 1, Reason.strict⟩,
     ⟨⟨1, 1⟩, 1, ⟨5000, 500⟩, "Regular B", 1, Reason.strict⟩] := by
  simp only [stage0, jsSort, jsSortAux, sInsert, strictLE_dup_true, eq_self_iff_true, if_true]
  with_unfolding_all rfl

theorem discover_dup_eq : discover inpDup = some
    [⟨⟨1, 1⟩, 1, ⟨5000, 500⟩, "Regular A", 1, Reason.strict⟩,
     ⟨⟨1, 1⟩, 1, ⟨5000, 500⟩, "Regular B", 1, Reason.strict⟩] := by
  have hbr : bestRegOf inpDup = some rteA10k := by with_unfolding_all rfl
  have hst : strictTier inpDup (bestPriceOf inpDup rteA10k) = some
      [⟨⟨1, 1⟩, 1, ⟨5000, 500⟩, "Regular A", 1, Reason.strict⟩,
       ⟨⟨1, 1⟩, 1, ⟨5000, 500⟩, "Regular B", 1, Reason.strict⟩] := by
    with_unfolding_all rfl
  simp only [discover, hbr, hst, stage0_dup_eq, List.length_cons, List.length_nil]
  norm_num [List.take]

theorem discover_triple_eq : discover inpTriple = some
    [⟨⟨9, 9⟩, 1, ⟨9000, 900⟩, "Regular A", 1, Reason.fallback⟩,
     ⟨⟨10, 10⟩, 1, ⟨9000, 900⟩, "Regular A", 1, Reason.fallback⟩,
     ⟨⟨11, 11⟩, 1, ⟨9000, 900⟩, "Regular A", 1, Reason.fallback⟩] := by
  with_unfolding_all rfl

/-- C3 (counterexample): on `inpBoundary` the pipeline returns a candidate
whose radial distance to the destination is exactly 12 m, so the distance
is not strictly greater than the 12 m separation floor: the source rejects
only `radial < 12`, making the interval closed at 12, not open. -/
theorem radial_boundary_cex :
    ∃ l c, discover inpBoundary = some l ∧ c ∈ l ∧
      inpBoundary.hav c.drop inpBoundary.dest = 12 ∧
      ¬ 12 < inpBoundary.hav c.drop inpBoundary.dest := by
  refine ⟨[⟨⟨1, 1⟩, 0, ⟨1000, 1000⟩, "Regular A", 1, Reason.fallback⟩],
    ⟨⟨1, 1⟩, 0, ⟨1000, 1000⟩, "Regular A", 1, Reason.fallback⟩,
    by with_unfolding_all rfl, List.mem_singleton_self _, rfl, by norm_num [inpBoundary]⟩

theorem candidate_radial_in_closed_interval_witness :
    discover inpBoundary =
      some [⟨⟨1, 1⟩, 0, ⟨1000, 1000⟩, "Regular A", 1, Reason.fallback⟩] ∧
    (12 ≤ inpBoundary.hav ⟨1, 1⟩ inpBoundary.dest ∧
      inpBoundary.hav ⟨1, 1⟩ inpBoundary.dest ≤ inpBoundary.radiusM) := by
  have hd : discover inpBoundary =
      some [⟨⟨1, 1⟩, 0, ⟨1000, 1000⟩, "Regular A", 1, Reason.fallback⟩] := by
    with_unfolding_all rfl
  exact ⟨hd, candidate_radial_in_closed_interval inpBoundary _ _ hd
    (List.mem_singleton_self _)⟩

/-- C6 (amended): dedup by the 6-decimal key is only guaranteed when at
least one of the two candidates came from a fallback pass (relaxed or
closest); the strict pass performs no key-based dedup, so two strict
candidates may share a key. -/
theorem merged_dedup_key6 (inp : PipeInput) (l : List Cand)
    (hd : discover inp = some l) :
    l.Pairwise (fun c₁ c₂ =>
      (c₁.reason = Reason.fallback ∨ c₂.reason = Reason.fallback) →
      key6 c₁.drop ≠ key6 c₂.drop) := by
  rcases discover_shape hd with ⟨_, rfl⟩ | ⟨bestReg, strictAll, _, hst, hrest⟩
  · exact List.Pairwise.nil
  · have hp0 : (stage0 inp (bestPriceOf inp bestReg) strictAll).Pairwise
        (fun c₁ c₂ => (c₁.reason = Reason.fallback ∨ c₂.reason = Reason.fallback) →
          key6 c₁.drop ≠ key6 c₂.drop) := by
      apply List.pairwise_of_forall_mem_list
      intro a ha b hb hor
      rcases hor with h | h
      · rw [(strictTier_bounds hst (mem_stage0 ha)).2] at h; exact absurd h (by simp)
      · rw [(strictTier_bounds hst (mem_stage0 hb)).2] at h; exact absurd h (by simp)
    rcases hrest with ⟨_, rfl⟩ | ⟨_, rAll, hrt, hrest⟩
    · exact List.Pairwise.sublist (List.take_sublist _ _) hp0
    · have hp1 : (stage1 inp (stage0 inp (bestPriceOf inp bestReg) strictAll) rAll).Pairwise
          (fun c₁ c₂ => (c₁.reason = Reason.fallback ∨ c₂.reason = Reason.fallback) →
            key6 c₁.drop ≠ key6 c₂.drop) := by
        simp only [stage1]
        apply mergeLoop_pairwise (fun c₁ c₂ hne => fun _ => hne) (max 2 4)
        · intro c hcm; simp only [keysOf]; exact List.mem_map_of_mem _ hcm
        · exact hp0
      rcases hrest with ⟨_, rfl⟩ | ⟨_, cAll, hct, rfl⟩
      · exact List.Pairwise.sublist (List.take_sublist _ _) hp1
      · have hp2 : (stage2 inp
            (stage1 inp (stage0 inp (bestPriceOf inp bestReg) strictAll) rAll) cAll).Pairwise
            (fun c₁ c₂ => (c₁.reason = Reason.fallback ∨ c₂.reason = Reason.fallback) →
              key6 c₁.drop ≠ key6 c₂.drop) := by
          simp only [stage2]
          apply mergeLoop_pairwise (fun c₁ c₂ hne => fun _ => hne) 2
          · intro c hcm; simp only [keysOf]; exact List.mem_map_of_mem _ hcm
          · exact hp1
        exact List.Pairwise.sublist (List.take_sublist _ _) hp2

/-- C6 (counterexample): on `inpDup` the strict passes of two routes both
accept the coordinate `(1, 1)`, and both survive into the final list: the
per-route capper does not dedup by key, so two returned candidates share
the same 6-decimal key. -/
theorem dedup_same_key_cex :
    ∃ l c₁ c₂, discover inpDup = some l ∧ l[0]? = some c₁ ∧ l[1]? = some c₂ ∧
      key6 c₁.drop = key6 c₂.drop ∧ c₁.routeIdx ≠ c₂.routeIdx := by
  refine ⟨[⟨⟨1, 1⟩, 1, ⟨5000, 500⟩, "Regular A", 1, Reason.strict⟩,
           ⟨⟨1, 1⟩, 1, ⟨5000, 500⟩, "Regular B", 1, Reason.strict⟩],
    ⟨⟨1, 1⟩, 1, ⟨5000, 500⟩, "Regular A", 1, Reason.strict⟩,
    ⟨⟨1, 1⟩, 1, ⟨5000, 500⟩, "Regular B", 1, Reason.strict⟩,
    discover_dup_eq, rfl, rfl, rfl, by decide⟩

theorem merged_dedup_key6_witness :
    discover inpTriple = some
      [⟨⟨9, 9⟩, 1, ⟨9000, 900⟩, "Regular A", 1, Reason.fallback⟩,
       ⟨⟨10, 10⟩, 1, ⟨9000, 900⟩, "Regular A", 1, Reason.fallback⟩,
       ⟨⟨11, 11⟩, 1, ⟨9000, 900⟩, "Regular A", 1, Reason.fallback⟩] ∧
    ([⟨⟨9, 9⟩, 1, ⟨9000, 900⟩, "Regular A", 1, Reason.fallback⟩,
      ⟨⟨10, 10⟩, 1, ⟨9000, 900⟩, "Regular A", 1, Reason.fallback⟩,
      ⟨⟨11, 11⟩, 1, ⟨9000, 900⟩, "Regular A", 1, Reason.fallback⟩] : List Cand).Pairwise
      (fun c₁ c₂ => (c₁.reason = Reason.fallback ∨ c₂.reason = Reason.fallback) →
        key6 c₁.drop ≠ key6 c₂.drop) :=
  ⟨discover_triple_eq, merged_dedup_key6 inpTriple _ discover_triple_eq⟩

/-- C7 (amended): the final list never exceeds MAX_SUGGESTIONS = 4, and
among strict-pass candidates at most 2 share a route label; but the
per-route cap applies only to the strict pass, not to the relaxed or
closest-fallback passes. -/
theorem overall_cap_and_strict_route_cap (inp : PipeInput) (l : List Cand)
    (hd : discover inp = some l) :
    l.length ≤ 4 ∧
    ∀ lab : String,
      l.countP (fun c => c.reason == Reason.strict && c.routeIdx == lab) ≤ 2 := by
  rcases discover_shape hd with ⟨_, rfl⟩ | ⟨bestReg, strictAll, _, hst, hrest⟩
  · exact ⟨by simp, fun lab => by simp⟩
  · have hcap : ∀ lab, (stage0 inp (bestPriceOf inp bestReg) strictAll).countP
        (fun c => c.reason == Reason.strict && c.routeIdx == lab) ≤ 2 := by
      intro lab
      have hmono : (stage0 inp (bestPriceOf inp bestReg) strictAll).countP
          (fun c => c.reason == Reason.strict && c.routeIdx == lab) ≤
        (stage0 inp (bestPriceOf inp bestReg) strictAll).countP
          (fun c => c.routeIdx == lab) :=
        List.countP_mono_left (fun x _ hx => ((Bool.and_eq_true _ _).mp hx).2)
      refine le_trans hmono ?_
      have h := capLoop_countP (jsSort (strictLE inp (bestPriceOf inp bestReg)) strictAll)
        (fun _ => 0) 0 lab
      simp only [stage0]
      omega
    rcases hrest with ⟨_, rfl⟩ | ⟨_, rAll, hrt, hrest⟩
    · exact ⟨List.length_take_le _ _,
        fun lab => le_trans (List.Sublist.countP_le _ (List.take_sublist _ _)) (hcap lab)⟩
    · have h1 : ∀ lab,
          (stage1 inp (stage0 inp (bestPriceOf inp bestReg) strictAll) rAll).countP
            (fun c => c.reason == Reason.strict && c.routeIdx == lab) ≤ 2 := by
        intro lab
        obtain ⟨s, hs, hsub⟩ := mergeLoop_decomp (max 2 4) (jsSort (priceLE inp) rAll)
          (keysOf (stage0 inp (bestPriceOf inp bestReg) strictAll))
          (stage0 inp (bestPriceOf inp bestReg) strictAll)
        simp only [stage1]
        rw [hs, List.countP_append]
        have hz : s.countP (fun c => c.reason == Reason.strict && c.routeIdx == lab) = 0 := by
          rw [List.countP_eq_zero]
          intro c hc
          have hr := (relaxedTier_bounds hrt (mem_jsSort.1 (hsub.subset hc))).2
          simp [hr]
        have := hcap lab
        omega
      rcases hrest with ⟨_, rfl⟩ | ⟨_, cAll, hct, rfl⟩
      · exact ⟨List.length_take_le _ _,
          fun lab => le_trans (List.Sublist.countP_le _ (List.take_sublist _ _)) (h1 lab)⟩
      · have h2 : ∀ lab,
            (stage2 inp (stage1 inp (stage0 inp (bestPriceOf inp bestReg) strictAll) rAll)
              cAll).countP
              (fun c => c.reason == Reason.strict && c.routeIdx == lab) ≤ 2 := by
          intro lab
          obtain ⟨s, hs, hsub⟩ := mergeLoop_decomp 2 (jsSort (closeLE inp) cAll)
            (keysOf (stage1 inp (stage0 inp (bestPriceOf inp bestReg) strictAll) rAll))
            (stage1 inp (stage0 inp (bestPriceOf inp bestReg) strictAll) rAll)
          simp only [stage2]
          rw [hs, List.countP_append]
          have hz : s.countP (fun c => c.reason == Reason.strict && c.routeIdx == lab) = 0 := by
            rw [List.countP_eq_zero]
            intro c hc
            have hr := (closestTier_bounds hct (mem_jsSort.1 (hsub.subset hc))).2
            simp [hr]
          have := h1 lab
          omega
        exact ⟨List.length_take_le _ _,
          fun lab => le_trans (List.Sublist.countP_le _ (List.take_sublist _ _)) (h2 lab)⟩

/-- C7 (counterexample): on `inpTriple` the relaxed pass returns three
candidates from the single route labelled `"Regular A"`: the 2-per-route
cap is applied only in the strict pass, not before merging in the other
tiers. -/
theorem per_route_cap_cex :
    ∃ l, discover inpTriple = some l ∧
      2 < l.countP (fun c => c.routeIdx == "Regular A") := by
  exact ⟨_, discover_triple_eq, by decide⟩

theorem overall_cap_and_strict_route_cap_witness :
    discover inpDup = some
      [⟨⟨1, 1⟩, 1, ⟨5000, 500⟩, "Regular A", 1, Reason.strict⟩,
       ⟨⟨1, 1⟩, 1, ⟨5000, 500⟩, "Regular B", 1, Reason.strict⟩] ∧
    ([⟨⟨1, 1⟩, 1, ⟨5000, 500⟩, "Regular A", 1, Reason.strict⟩,
      ⟨⟨1, 1⟩, 1, ⟨5000, 500⟩, "Regular B", 1, Reason.strict⟩] : List Cand).length ≤ 4 ∧
    ([⟨⟨1, 1⟩, 1, ⟨5000, 500⟩, "Regular A", 1, Reason.strict⟩,
      ⟨⟨1, 1⟩, 1, ⟨5000, 500⟩, "Regular B", 1, Reason.strict⟩] : List Cand).countP
      (fun c => c.reason == Reason.strict && c.routeIdx == "Regular A") ≤ 2 :=
  ⟨discover_dup_eq, (overall_cap_and_strict_route_cap inpDup _ discover_dup_eq).1,
    (overall_cap_and_strict_route_cap inpDup _ discover_dup_eq).2 "Regular A"⟩

theorem closeLE_trans (inp : PipeInput) (a b c : Cand)
    (h1 : closeLE inp a b = true) (h2 : closeLE inp b c = true) : closeLE inp a c = true := by
  simp only [closeLE] at h1 h2 ⊢
  by_cases hab : inp.hav a.drop inp.dest = inp.hav b.drop inp.dest
  · rw [if_pos hab] at h1
    by_cases hbc : inp.hav b.drop inp.dest = inp.hav c.drop inp.dest
    · rw [if_pos hbc] at h2
      rw [if_pos (hab.trans hbc)]
      exact decide_eq_true (le_trans (of_decide_eq_true h1) (of_decide_eq_true h2))
    · rw [if_neg hbc] at h2
      have h2' := of_decide_eq_true h2
      have hac : ¬ inp.hav a.drop inp.dest = inp.hav c.drop inp.dest := by
        rw [hab]; exact ne_of_lt h2'
      rw [if_neg hac]
      exact decide_eq_true (by rw [hab]; exact h2')
  · rw [if_neg hab] at h1
    have h1' := of_decide_eq_true h1
    by_cases hbc : inp.hav b.drop inp.dest = inp.hav c.drop inp.dest
    · have hac : ¬ inp.hav a.drop inp.dest = inp.hav c.drop inp.dest := by
        rw [← hbc]; exact ne_of_lt h1'
      rw [if_neg hac]
      exact decide_eq_true (by rw [← hbc]; exact h1')
    · rw [if_neg hbc] at h2
      have hlt := lt_trans h1' (of_decide_eq_true h2)
      rw [if_neg (ne_of_lt hlt)]
      exact decide_eq_true hlt

theorem closeLE_total (inp : PipeInput) (a b : Cand) :
    closeLE inp a b = true ∨ closeLE inp b a = true := by
  simp only [closeLE]
  by_cases hab : inp.hav a.drop inp.dest = inp.hav b.drop inp.dest
  · rw [if_pos hab, if_pos hab.symm]
    rcases le_total (candPrice inp a) (candPrice inp b) with h | h
    · exact Or.inl (decide_eq_true h)
    · exact Or.inr (decide_eq_true h)
  · rw [if_neg hab, if_neg (Ne.symm hab)]
    rcases lt_or_gt_of_ne hab with h | h
    · exact Or.inl (decide_eq_true h)
    · exact Or.inr (decide_eq_true h)

theorem closeLE_le {inp : PipeInput} {a b : Cand} (h : closeLE inp a b = true) :
    inp.hav a.drop inp.dest ≤ inp.hav b.drop inp.dest := by
  simp only [closeLE] at h
  by_cases hab : inp.hav a.drop inp.dest = inp.hav b.drop inp.dest
  · exact le_of_eq hab
  · rw [if_neg hab] at h
    exact le_of_lt (of_decide_eq_true h)

/-- C1 (amended): when the strict and relaxed tiers accept nothing, the
closest-fallback tier returns exactly `MIN_SUGGESTIONS = 2` candidates
ranked by ascending radial distance — provided the fallback tier itself
accepts points with at least 2 distinct dedup keys.  The fallback tier
requires a successful drive query for each point, not merely the
radius/separation invariant. -/
theorem fallback_tier_guarantee (inp : PipeInput) (bestReg : RouteGeo) (cl : List Cand)
    (hbr : bestRegOf inp = some bestReg)
    (hst : strictTier inp (bestPriceOf inp bestReg) = some [])
    (hrt : relaxedTier inp = some [])
    (hct : closestTier inp = some cl)
    (hkeys : 2 ≤ (cl.map (fun c => key6 c.drop)).toFinset.card) :
    ∃ l, discover inp = some l ∧ l.length = 2 ∧
      l.Pairwise (fun a b => inp.hav a.drop inp.dest ≤ inp.hav b.drop inp.dest) := by
  have h0 : stage0 inp (bestPriceOf inp bestReg) [] = [] := rfl
  have h1 : stage1 inp [] [] = [] := rfl
  have hd : discover inp = some ((stage2 inp [] cl).take 4) := by
    simp only [discover, hbr, hst, hrt, hct, h0, h1, List.length_nil]
    norm_num
  have hfin : ((jsSort (closeLE inp) cl).map (fun c => key6 c.drop)).toFinset =
      (cl.map (fun c => key6 c.drop)).toFinset :=
    List.toFinset_eq_of_perm _ _ (List.Perm.map (fun c => key6 c.drop) (jsSort_perm (closeLE inp) cl))
  have h2 : 2 ≤ ([] : List Cand).length +
      (((jsSort (closeLE inp) cl).map (fun c => key6 c.drop)).toFinset \
        ([] : List (ℤ × ℤ)).toFinset).card := by
    simp only [List.length_nil, List.toFinset_nil, Finset.sdiff_empty, hfin, Nat.zero_add]
    exact hkeys
  have hlen : (stage2 inp [] cl).length = 2 := by
    simpa only [stage2, keysOf, List.map_nil] using
      mergeLoop_len_stop 2 (jsSort (closeLE inp) cl) [] [] (by norm_num) h2
  have hpair : (stage2 inp [] cl).Pairwise
      (fun a b => inp.hav a.drop inp.dest ≤ inp.hav b.drop inp.dest) := by
    simp only [stage2, keysOf, List.map_nil]
    obtain ⟨s, hs, hsub⟩ := mergeLoop_decomp 2 (jsSort (closeLE inp) cl) [] []
    rw [hs]
    simp only [List.nil_append]
    exact List.Pairwise.imp (fun h => closeLE_le h)
      (List.Pairwise.sublist hsub (jsSort_pairwise (closeLE_trans inp) (closeLE_total inp) cl))
  refine ⟨_, hd, ?_, List.Pairwise.sublist (List.take_sublist _ _) hpair⟩
  rw [List.length_take, hlen]
  decide

/-- C1 (counterexample): on `inpDriveFail` every drive query fails, so all
three tiers accept nothing and the pipeline returns an empty list even
though two sampled tail points satisfy the radius/separation invariant:
the closest-fallback tier also requires drive stats for each point, so
"at least MIN_SUGGESTIONS points satisfying the radius/separation
invariant" does not suffice for a non-empty result. -/
theorem fallback_guarantee_cex :
    discover inpDriveFail = some [] ∧
    sampleTail rteA10.coords 16 (0.22 : ℚ) = some [⟨6, 6⟩, ⟨7, 7⟩] ∧
    (∀ p ∈ ([⟨6, 6⟩, ⟨7, 7⟩] : List LatLng),
      12 ≤ inpDriveFail.hav p inpDriveFail.dest ∧
        inpDriveFail.hav p inpDriveFail.dest ≤ inpDriveFail.radiusM) := by
  refine ⟨by with_unfolding_all rfl, by with_unfolding_all rfl, ?_⟩
  intro p _
  exact ⟨by norm_num [inpDriveFail], by norm_num [inpDriveFail]⟩

theorem fallback_tier_guarantee_witness :
    strictTier inpFallbackOnly (bestPriceOf inpFallbackOnly rteA10) = some [] ∧
    relaxedTier inpFallbackOnly = some [] ∧
    (∃ l, discover inpFallbackOnly = some l ∧ l.length = 2 ∧
      l.Pairwise (fun a b => inpFallbackOnly.hav a.drop inpFallbackOnly.dest ≤
        inpFallbackOnly.hav b.drop inpFallbackOnly.dest)) := by
  have hbr : bestRegOf inpFallbackOnly = some rteA10 := by with_unfolding_all rfl
  have hst : strictTier inpFallbackOnly (bestPriceOf inpFallbackOnly rteA10) = some [] := by
    with_unfolding_all rfl
  have hrt : relaxedTier inpFallbackOnly = some [] := by with_unfolding_all rfl
  have hct : closestTier inpFallbackOnly = some
      [⟨⟨6, 6⟩, 1, ⟨10000, 1000⟩, "Regular A", 1, Reason.fallback⟩,
       ⟨⟨7, 7⟩, 1, ⟨10000, 1000⟩, "Regular A", 1, Reason.fallback⟩] := by
    with_unfolding_all rfl
  have hkeys : 2 ≤ ((([⟨⟨6, 6⟩, 1, ⟨10000, 1000⟩, "Regular A", 1, Reason.fallback⟩,
      ⟨⟨7, 7⟩, 1, ⟨10000, 1000⟩, "Regular A", 1, Reason.fallback⟩] : List Cand)).map
        (fun c => key6 c.drop)).toFinset.card := by
    with_unfolding_all exact of_decide_eq_true rfl
  exact ⟨hst, hrt,
    fallback_tier_guarantee inpFallbackOnly rteA10 _ hbr hst hrt hct hkeys⟩

theorem buildEvalPt_walk {env : BuildInput} {strict : Bool} {r : RouteGeo} {p : LatLng}
    {c : CandV1} (h : buildEvalPt env strict r p = some c) :
    c.walkMin ≤ metersToMinWalk env.radiusM + 1 := by
  simp only [buildEvalPt] at h
  split at h
  · exact absurd h (by simp)
  · split at h
    · exact absurd h (by simp)
    · rename_i hwalk
      push_neg at hwalk
      repeat' split at h
      all_goals
        first
          | (simp only [Option.some.injEq] at h; subst h;
             first
               | exact hwalk
               | (rename_i heq; simp only [heq] at hwalk; exact hwalk))
          | exact absurd h (by simp)

theorem buildPass_mem {env : BuildInput} {strict : Bool} :
    ∀ {routes : List RouteGeo} {L : List CandV1}, buildPass env strict routes = some L →
      ∀ {c : CandV1}, c ∈ L → ∃ r ∈ routes, ∃ p, buildEvalPt env strict r p = some c := by
  intro routes
  induction routes with
  | nil =>
    intro L h c hc
    simp only [buildPass, Option.some.injEq] at h
    subst h
    simp at hc
  | cons r rest ih =>
    intro L h c hc
    simp only [buildPass] at h
    cases hst : sampleTail r.coords 16 (0.22 : ℚ) with
    | none => rw [hst] at h; simp at h
    | some pts =>
      rw [hst] at h
      cases hrest : buildPass env strict rest with
      | none => rw [hrest] at h; simp at h
      | some ls =>
        rw [hrest] at h
        simp only [Option.some.injEq] at h
        subst h
        rcases List.mem_append.1 hc with hc | hc
        · obtain ⟨p, _, hev⟩ := List.mem_filterMap.1 hc
          exact ⟨r, List.mem_cons_self _ _, p, hev⟩
        · obtain ⟨r', hr', p, hev⟩ := ih hrest hc
          exact ⟨r', List.mem_cons_of_mem _ hr', p, hev⟩

theorem capV1_sublist : ∀ (l : List CandV1) (cnt : String → ℕ),
    (capV1 cnt l).Sublist l := by
  intro l
  induction l with
  | nil => intro cnt; simp [capV1]
  | cons c rest ih =>
    intro cnt
    simp only [capV1]
    split
    · exact List.Sublist.cons₂ _ (ih _)
    · exact List.Sublist.cons _ (ih _)

/-- C4 (amended): the walking-time ceiling `metersToMinWalk(radiusM) + 1`
is enforced by the two-pass page.tsx `build` variant: every candidate it
returns has `walkMin` at most the ceiling.  (The authoritative multi-tier
variant has no such check; see the counterexample.) -/
theorem build_walk_ceiling (env : BuildInput) (l : List CandV1) (c : CandV1)
    (hb : buildCandidates env = some l) (hc : c ∈ l) :
    c.walkMin ≤ metersToMinWalk env.radiusM + 1 := by
  have hbuild : ∀ strict out, build env strict = some out → c ∈ out →
      c.walkMin ≤ metersToMinWalk env.radiusM + 1 := by
    intro strict out hb2 hc2
    simp only [build] at hb2
    cases hp : buildPass env strict env.visible with
    | none => rw [hp] at hb2; simp at hb2
    | some all =>
      rw [hp] at hb2
      simp only [Option.map_some', Option.some.injEq] at hb2
      subst hb2
      have hmem := (capV1_sublist _ _).subset hc2
      obtain ⟨r, _, p, hev⟩ := buildPass_mem hp (mem_jsSort.1 hmem)
      exact buildEvalPt_walk hev
  simp only [buildCandidates] at hb
  cases h1 : build env true with
  | none => rw [h1] at hb; simp at hb
  | some out =>
    rw [h1] at hb
    simp only [] at hb
    by_cases hlen : out.length = 0
    · rw [if_pos hlen] at hb
      exact hbuild false l hb hc
    · rw [if_neg hlen] at hb
      simp only [Option.some.injEq] at hb
      subst hb
      exact hbuild true _ h1 hc

/-- C4 (counterexample): the authoritative multi-tier PageClient drops the
walking-time ceiling entirely: on `inpLongWalk` the provider walking time
is 600 minutes, far beyond `metersToMinWalk(400) + 1 = 6` minutes, yet
the point is accepted and returned with large drive savings. -/
theorem walk_ceiling_not_enforced_cex :
    ∃ l c, discover inpLongWalk = some l ∧ c ∈ l ∧
      metersToMinWalk inpLongWalk.radiusM + 1 < c.walkMin := by
  refine ⟨[⟨⟨1, 1⟩, 600, ⟨5000, 500⟩, "Regular A", 1, Reason.strict⟩],
    ⟨⟨1, 1⟩, 600, ⟨5000, 500⟩, "Regular A", 1, Reason.strict⟩,
    by with_unfolding_all rfl, List.mem_singleton_self _,
    by with_unfolding_all exact of_decide_eq_true rfl⟩

theorem build_walk_ceiling_witness :
    buildCandidates envOneCand = some [⟨⟨1, 1⟩, 1, ⟨5000, 500⟩, "Regular A"⟩] ∧
    (⟨⟨1, 1⟩, 1, ⟨5000, 500⟩, "Regular A"⟩ : CandV1).walkMin ≤
      metersToMinWalk envOneCand.radiusM + 1 := by
  have hb : buildCandidates envOneCand = some [⟨⟨1, 1⟩, 1, ⟨5000, 500⟩, "Regular A"⟩] := by
    with_unfolding_all rfl
  exact ⟨hb, build_walk_ceiling envOneCand _ _ hb (List.mem_singleton_self _)⟩

/-- C8: tightening any strict factor (lower distance factor, lower time
factor, higher percentage improvement threshold, higher absolute
improvement floor) never increases the strict-tier candidate count, for
routes with non-negative provider stats. -/
theorem strict_tier_monotone (inp : PipeInput) (bp df tf pct absm df2 tf2 pct2 absm2 : ℚ)
    (l l2 : List Cand)
    (hdf : df2 ≤ df) (htf : tf2 ≤ tf) (hpct : pct ≤ pct2) (habs : absm ≤ absm2)
    (hvalid : ∀ r ∈ visibleOf inp, 0 ≤ r.distance ∧ 0 ≤ r.duration)
    (hl : strictCappedP inp bp df tf pct absm = some l)
    (hl2 : strictCappedP inp bp df2 tf2 pct2 absm2 = some l2) :
    l2.length ≤ l.length := by
  simp only [strictCappedP] at hl hl2
  cases hA : tierCands (strictEvalPtP inp bp df tf pct absm) (visibleOf inp) with
  | none => rw [hA] at hl; simp at hl
  | some A =>
    rw [hA] at hl
    cases hA2 : tierCands (strictEvalPtP inp bp df2 tf2 pct2 absm2) (visibleOf inp) with
    | none => rw [hA2] at hl2; simp at hl2
    | some A2 =>
      rw [hA2] at hl2
      simp only [Option.map_some', Option.some.injEq] at hl hl2
      subst hl; subst hl2
      have hsub : A2.Sublist A := tierCands_sub
        (fun r hr p c hev =>
          strictEvalPtP_mono hdf htf hpct habs (hvalid r hr).1 (hvalid r hr).2 hev)
        hA hA2
      calc (capLoop (fun _ => 0) 0 (jsSort (strictLE inp bp) A2)).length
          = (capLoop (fun _ => 0) 0 A2).length :=
            capLoop_len_perm (jsSort_perm _ _) _ 0 (by omega)
        _ ≤ (capLoop (fun _ => 0) 0 A).length :=
            capLoop_len_sublist hsub _ 0 (by omega)
        _ = (capLoop (fun _ => 0) 0 (jsSort (strictLE inp bp) A)).length :=
            (capLoop_len_perm (jsSort_perm _ _) _ 0 (by omega)).symm

theorem strict_tier_monotone_witness :
    strictCappedP inpEmpty 10 (0.88 : ℚ) (0.88 : ℚ) (0.12 : ℚ) (1.75 : ℚ) = some [] ∧
    strictCappedP inpEmpty 10 (0.5 : ℚ) (0.5 : ℚ) (0.2 : ℚ) (2 : ℚ) = some [] ∧
    ([] : List Cand).length ≤ ([] : List Cand).length := by
  have hl : strictCappedP inpEmpty 10 (0.88 : ℚ) (0.88 : ℚ) (0.12 : ℚ) (1.75 : ℚ) =
      some [] := by with_unfolding_all rfl
  have hl2 : strictCappedP inpEmpty 10 (0.5 : ℚ) (0.5 : ℚ) (0.2 : ℚ) (2 : ℚ) =
      some [] := by with_unfolding_all rfl
  refine ⟨hl, hl2, ?_⟩
  exact strict_tier_monotone inpEmpty 10 (0.88 : ℚ) (0.88 : ℚ) (0.12 : ℚ) (1.75 : ℚ)
    (0.5 : ℚ) (0.5 : ℚ) (0.2 : ℚ) (2 : ℚ) [] []
    (by norm_num) (by norm_num) (by norm_num) (by norm_num)
    (by intro r hr; simp [visibleOf, inpEmpty] at hr) hl hl2
